import Mathlib

/-!
Shallow embedding of the LiteSTL cache subsystem.

Two caches are embedded:
* `LiteSTL.LRU_K_Cache` — the LRU-K cache (lru_k_cache.h): an index
  (`std::unordered_map<K, LRUNode*> cache_`, modelled as a list of nodes with
  pairwise-distinct keys), an eviction ordering structure
  (`std::set<LRUNode*, Compare> eviction_set_`, modelled as the list of member
  keys with the order re-derived from the current node states — faithful
  because the code always removes a node from the set before mutating its
  history and reinserts afterwards, so set order always agrees with current
  node state), and a logical clock (`timestamp_t = uint64_t`, modelled as `Nat`
  with the explicit bound `timestampMax`; the guarded increment never wraps).
* `LiteSTL.LRUCache` — the single-history LRU cache (lru_cache.h): the
  sentinel-linked doubly-linked list plus `std::unordered_map` is modelled as
  one list of key/value pairs in recency order (head = node right after the
  `_head` sentinel, last = `_tail->prev`); the map and the list are kept
  consistent by the code, so a single list carries the whole state.

Fallible operations (the `THROW_RUNTIME` path on timestamp overflow) return
the post-throw state together with an error flag / `Except` value, because a
C++ `throw` propagates while the object keeps every mutation made before the
throw point.
-/

namespace LiteSTL

/-- Decidable equality on `Except`, so that the closed theorems can be
checked by evaluation. -/
instance decidableEqExcept {ε α : Type} [DecidableEq ε] [DecidableEq α] :
    DecidableEq (Except ε α) := fun x y =>
  match x, y with
  | Except.ok a, Except.ok b =>
    if h : a = b then Decidable.isTrue (by rw [h])
    else Decidable.isFalse (by intro hc; cases hc; exact h rfl)
  | Except.error a, Except.error b =>
    if h : a = b then Decidable.isTrue (by rw [h])
    else Decidable.isFalse (by intro hc; cases hc; exact h rfl)
  | Except.ok _, Except.error _ => Decidable.isFalse (by intro hc; cases hc)
  | Except.error _, Except.ok _ => Decidable.isFalse (by intro hc; cases hc)

/-- Maximum of `timestamp_t = uint64_t`, i.e.
`std::numeric_limits<uint64_t>::max()`. -/
def timestampMax : Nat := 2 ^ 64 - 1

/-- The `LRUNode` struct of `LRU_K_Cache`: key, value, deque of access
timestamps (oldest first), evictability flag. -/
structure LRUNode (K V : Type) where
  key_ : K
  value_ : V
  history_ : List Nat
  is_evictable_ : Bool
deriving DecidableEq

/-- The `LRU_K_Cache` state: capacity, K, the index `cache_` (association
list of nodes, keyed by `key_`), the eviction set (list of the member keys),
and the logical clock. -/
structure LRU_K_Cache (K V : Type) where
  capacity_ : Nat
  k_ : Nat
  cache_ : List (LRUNode K V)
  eviction_keys_ : List K
  current_timestamp_ : Nat
deriving DecidableEq

variable {K V : Type} [LinearOrder K]

/-- The `Compare` struct stores `int k_`, initialised by a narrowing
conversion from the cache's `size_t k` (`eviction_set_(Compare(k))`),
wrapping modulo `2^32` in two's complement; each test
`history_.size() < k_` then converts that `int` back to `size_t`.
`sizeTK k` is the resulting effective threshold: `k mod 2^32` when the
narrowed value is non-negative, its sign-extended 64-bit image when the
narrowed value is negative (in which case every realisable history length
is below the threshold and the comparator orders by key alone). -/
def sizeTK (k : Nat) : Nat :=
  if k % 2 ^ 32 < 2 ^ 31 then k % 2 ^ 32
  else 2 ^ 64 - 2 ^ 32 + k % 2 ^ 32

/-- `LRU_K_Cache::Compare::operator()` — the `std::set` comparator. All
four threshold tests compare against `sizeTK k`, the `size_t` image of the
narrowed `int k_`. `history_.front()` is modelled as `List.headD 0`; the
branch reading `front()` is only reached when both histories have length
`≥ sizeTK k`, so for `1 ≤ k < 2^31` it is never consulted on an empty
history (on an empty deque `front()` is undefined behaviour in the source,
reachable there when `k_ = 0`). -/
def Compare (k : Nat) (a b : LRUNode K V) : Bool :=
  if a.history_.length < sizeTK k ∧ b.history_.length < sizeTK k then
    decide (a.key_ < b.key_)
  else if a.history_.length < sizeTK k then false
  else if b.history_.length < sizeTK k then true
  else if a.history_.headD 0 = b.history_.headD 0 then
    decide (a.key_ < b.key_)
  else decide (a.history_.headD 0 < b.history_.headD 0)

/-- Lookup in the index (`cache_.find(key)`). -/
def lookupNode (l : List (LRUNode K V)) (key : K) : Option (LRUNode K V) :=
  l.find? fun n => decide (n.key_ = key)

/-- Replace the node stored under `key` (a mutation through the
`LRUNode*` held by the map). -/
def updateNode (l : List (LRUNode K V)) (key : K) (n' : LRUNode K V) :
    List (LRUNode K V) :=
  l.map fun n => if n.key_ = key then n' else n

/-- Overwrite just the value of the node stored under `key`
(`node->value_ = value`). -/
def updateValue (l : List (LRUNode K V)) (key : K) (v : V) :
    List (LRUNode K V) :=
  l.map fun n => if n.key_ = key then { n with value_ := v } else n

/-- Erase from the index (`cache_.erase(key)`); with pairwise-distinct keys
the filter removes exactly the one stored node. -/
def removeNodeKey (l : List (LRUNode K V)) (key : K) : List (LRUNode K V) :=
  l.filter fun n => decide (n.key_ ≠ key)

/-- Erase a key from the eviction-set key list (`eviction_set_.erase(node)`);
the list never holds duplicates in reachable states, so filtering equals
removing the one occurrence. -/
def eraseKey (l : List K) (key : K) : List K :=
  l.filter fun a => decide (a ≠ key)

/-- `std::set::insert`: adds the element unless an equivalent one is already
a member. -/
def setInsert (l : List K) (key : K) : List K :=
  if key ∈ l then l else key :: l

/-- Ordered insertion under a boolean strict-order test. -/
def insertSorted {α : Type} (lt : α → α → Bool) (a : α) : List α → List α
  | [] => [a]
  | b :: rest => if lt a b then a :: b :: rest else b :: insertSorted lt a rest

/-- Sort under a boolean strict-order test (insertion sort); used to
re-derive the `std::set` iteration order from the current node states. -/
def sortBy {α : Type} (lt : α → α → Bool) : List α → List α
  | [] => []
  | a :: rest => insertSorted lt a (sortBy lt rest)

/-- The nodes currently held by `eviction_set_`. -/
def members (s : LRU_K_Cache K V) : List (LRUNode K V) :=
  s.eviction_keys_.filterMap fun k => lookupNode s.cache_ k

/-- `LRU_K_Cache::ResourceAccess`. Returns the post-call state together with
`true` when `THROW_RUNTIME("Timestamp overflow in LRU-K Cache")` fired (the
throw happens before any mutation, so the state is returned unchanged then).
The `none` branch of the lookup is unreachable from the public operations,
which only call `ResourceAccess` on a key present in the index.
Caveat: `eviction_set_.erase(node)` is modelled as key-list erasure; in the
source that erase invokes the comparator, which at `k_ = 0` reads `front()`
of an empty history (undefined behaviour). The theorems below therefore
either assume `k ≥ 1` or only exercise paths (such as the clock-overflow
throw) that return before this erase. -/
def ResourceAccess (s : LRU_K_Cache K V) (key : K) :
    LRU_K_Cache K V × Bool :=
  if s.current_timestamp_ = timestampMax then (s, true)
  else
    match lookupNode s.cache_ key with
    | none => (s, false)
    | some node =>
      let ev1 := if node.history_.length = s.k_ then
          eraseKey s.eviction_keys_ key
        else s.eviction_keys_
      let ts := s.current_timestamp_ + 1
      let h1 := node.history_ ++ [ts]
      let h2 := if s.k_ < h1.length then h1.tail else h1
      let node' : LRUNode K V :=
        { node with
          history_ := h2
          is_evictable_ := if h2.length = s.k_ then true else node.is_evictable_ }
      let ev2 := if h2.length = s.k_ then setInsert ev1 key else ev1
      ({ s with
          cache_ := updateNode s.cache_ key node'
          eviction_keys_ := ev2
          current_timestamp_ := ts }, false)

/-- `LRU_K_Cache::Evict`: when the index has reached capacity, walk the
eviction set in comparator order and delete the first evictable node from
both the set and the index. -/
def Evict (s : LRU_K_Cache K V) : LRU_K_Cache K V :=
  if s.cache_.length < s.capacity_ then s
  else
    match (sortBy (Compare s.k_) (members s)).find? (fun n => n.is_evictable_) with
    | none => s
    | some node =>
      { s with
        eviction_keys_ := eraseKey s.eviction_keys_ node.key_
        cache_ := removeNodeKey s.cache_ node.key_ }

/-- The `LRU_K_Cache(size_t cache_size, size_t k)` constructor: it performs
no validation of its arguments. -/
def init (cache_size k : Nat) : LRU_K_Cache K V :=
  { capacity_ := cache_size
    k_ := k
    cache_ := []
    eviction_keys_ := []
    current_timestamp_ := 0 }

/-- `LRU_K_Cache::Get`. -/
def Get (s : LRU_K_Cache K V) (key : K) :
    LRU_K_Cache K V × Except String (Option V) :=
  match lookupNode s.cache_ key with
  | none => (s, Except.ok none)
  | some node =>
    let ra := ResourceAccess s key
    if ra.2 then (ra.1, Except.error "Timestamp overflow in LRU-K Cache")
    else (ra.1, Except.ok (some node.value_))

/-- `LRU_K_Cache::Put`. On a new key the code first runs `Evict`, then
inserts the fresh node into the index, and only then calls
`ResourceAccess` — so the clock-overflow throw, when it fires, happens after
the eviction and the index insertion. -/
def Put (s : LRU_K_Cache K V) (key : K) (value : V) :
    LRU_K_Cache K V × Except String Unit :=
  match lookupNode s.cache_ key with
  | some _ =>
    let ra := ResourceAccess s key
    if ra.2 then (ra.1, Except.error "Timestamp overflow in LRU-K Cache")
    else ({ ra.1 with cache_ := updateValue ra.1.cache_ key value }, Except.ok ())
  | none =>
    let s1 := Evict s
    let node : LRUNode K V :=
      { key_ := key, value_ := value, history_ := [], is_evictable_ := false }
    let s2 := { s1 with cache_ := node :: s1.cache_ }
    let ra := ResourceAccess s2 key
    if ra.2 then (ra.1, Except.error "Timestamp overflow in LRU-K Cache")
    else (ra.1, Except.ok ())

/-- `LRU_K_Cache::Remove`. -/
def Remove (s : LRU_K_Cache K V) (key : K) : LRU_K_Cache K V × Bool :=
  match lookupNode s.cache_ key with
  | none => (s, false)
  | some node =>
    let ev1 :=
      if node.history_.length = s.k_ ∧ node.is_evictable_ then
        eraseKey s.eviction_keys_ key
      else s.eviction_keys_
    ({ s with cache_ := removeNodeKey s.cache_ key, eviction_keys_ := ev1 }, true)

/-- `LRU_K_Cache::contains` — a `const` method: it reads the index and
returns the state unchanged. -/
def containsOp (s : LRU_K_Cache K V) (key : K) : LRU_K_Cache K V × Bool :=
  (s, (lookupNode s.cache_ key).isSome)

/-- `LRU_K_Cache::size`. -/
def size (s : LRU_K_Cache K V) : Nat := s.cache_.length

/-- One public mutating operation of the LRU-K cache (`contains` is included
to cover the whole public surface; `size` is `const` and stateless). -/
inductive Op (K V : Type) where
  | get (key : K)
  | put (key : K) (value : V)
  | remove (key : K)
  | contains (key : K)

/-- Effect of one public operation on the cache state. -/
def stepOp (s : LRU_K_Cache K V) : Op K V → LRU_K_Cache K V
  | Op.get key => (Get s key).1
  | Op.put key value => (Put s key value).1
  | Op.remove key => (Remove s key).1
  | Op.contains key => (containsOp s key).1

/-- Run a sequence of public operations. -/
def run (s : LRU_K_Cache K V) : List (Op K V) → LRU_K_Cache K V
  | [] => s
  | op :: rest => run (stepOp s op) rest

/-- The overflow proviso for one operation: a `put` of a new key made while
the index has reached capacity requires some indexed entry with full history
(K recorded accesses). -/
def provisoHolds (s : LRU_K_Cache K V) : Op K V → Bool
  | Op.put key _ =>
    (lookupNode s.cache_ key).isSome ||
    decide (size s < s.capacity_) ||
    s.cache_.any fun n => decide (n.history_.length = s.k_)
  | _ => true

/-- The overflow proviso along a whole operation sequence. -/
def provisoAll (s : LRU_K_Cache K V) : List (Op K V) → Bool
  | [] => true
  | op :: rest => provisoHolds s op && provisoAll (stepOp s op) rest

/-- Well-formedness of an `LRU_K_Cache` state (`K ≥ 1`): distinct index
keys, duplicate-free eviction set whose keys are all indexed, bounded
histories, membership in the eviction set exactly for full-history entries,
and `is_evictable_` tracking full history. Every state reachable from the
constructor with `k ≥ 1` satisfies it. -/
def WF (s : LRU_K_Cache K V) : Prop :=
  1 ≤ s.k_ ∧
  (s.cache_.map fun n => n.key_).Nodup ∧
  s.eviction_keys_.Nodup ∧
  (∀ k ∈ s.eviction_keys_, (lookupNode s.cache_ k).isSome) ∧
  (∀ n ∈ s.cache_, n.history_.length ≤ s.k_) ∧
  (∀ n ∈ s.cache_, n.key_ ∈ s.eviction_keys_ ↔ n.history_.length = s.k_) ∧
  (∀ n ∈ s.cache_, n.is_evictable_ = decide (n.history_.length = s.k_))

instance decidableWF (s : LRU_K_Cache K V) : Decidable (WF s) := by
  unfold WF
  infer_instance

end LiteSTL

namespace LiteSTL

/-! ### The single-history LRU cache (lru_cache.h) -/

/-- The `LRUCache` state: capacity (`int _capacity` in the source; the
claims restrict attention to non-negative capacities) and the key/value
pairs in recency order, most recent first. -/
structure LRUCache (K V : Type) where
  capacity : Nat
  list : List (K × V)
deriving DecidableEq

variable {K V : Type} [DecidableEq K]

/-- `_cache_mapper.find(key)`, returning the stored value. -/
def lookupPair (l : List (K × V)) (key : K) : Option V :=
  (l.find? fun p => decide (p.1 = key)).map fun p => p.2

/-- Unlink the node holding `key` from the recency list. -/
def erasePairKey (l : List (K × V)) (key : K) : List (K × V) :=
  l.filter fun p => decide (p.1 ≠ key)

/-- The `LRUCache(int capacity)` constructor: empty sentinel-linked list. -/
def initL (capacity : Nat) : LRUCache K V :=
  { capacity := capacity, list := [] }

/-- `LRUCache::put`: unlink and delete any old node for the key, insert a
fresh node at the head, then — if the map has outgrown the capacity — unlink,
erase and delete `_tail->prev` (the last real node). -/
def putL (c : LRUCache K V) (key : K) (v : V) : LRUCache K V :=
  let l1 := if (lookupPair c.list key).isSome then erasePairKey c.list key
    else c.list
  let l2 := (key, v) :: l1
  if c.capacity < l2.length then { c with list := l2.dropLast }
  else { c with list := l2 }

/-- `LRUCache::get`: on a hit, move the node to the head and return its
value; on a miss return `std::nullopt` with no state change. -/
def getL (c : LRUCache K V) (key : K) : Option V × LRUCache K V :=
  match lookupPair c.list key with
  | none => (none, c)
  | some v => (some v, { c with list := (key, v) :: erasePairKey c.list key })

/-- One public operation of the single-history cache. -/
inductive OpL (K V : Type) where
  | get (key : K)
  | put (key : K) (value : V)

/-- Effect of one operation on the `LRUCache` state. -/
def stepL (c : LRUCache K V) : OpL K V → LRUCache K V
  | OpL.get key => (getL c key).2
  | OpL.put key value => putL c key value

/-- Run a sequence of operations on the single-history cache. -/
def runL (c : LRUCache K V) : List (OpL K V) → LRUCache K V
  | [] => c
  | op :: rest => runL (stepL c op) rest

/-- Number of stored entries (`_cache_mapper.size()`). -/
def sizeL (c : LRUCache K V) : Nat := c.list.length

/-- The distinct keys currently retrievable through `get`. -/
def retrievableKeys (c : LRUCache K V) : List K :=
  (c.list.map fun p => p.1).dedup

end LiteSTL

namespace LiteSTL

/-! Concrete `LRU_K_Cache` states used by the closed theorems below. -/

/-- A well-formed state whose logical clock has reached the maximum
representable timestamp: capacity 1, K 1, one full-history entry. -/
def sMax1 : LRU_K_Cache Nat Nat :=
  { capacity_ := 1
    k_ := 1
    cache_ := [{ key_ := 0, value_ := 10, history_ := [1], is_evictable_ := true }]
    eviction_keys_ := [0]
    current_timestamp_ := timestampMax }

/-- A well-formed state at capacity with two full-history entries whose
oldest timestamps differ: capacity 2, K 1. -/
def sC1 : LRU_K_Cache Nat Nat :=
  { capacity_ := 2
    k_ := 1
    cache_ := [{ key_ := 0, value_ := 10, history_ := [2], is_evictable_ := true },
               { key_ := 1, value_ := 11, history_ := [1], is_evictable_ := true }]
    eviction_keys_ := [0, 1]
    current_timestamp_ := 2 }

/-- A small well-formed state with one full-history entry, used to exercise
`Remove`. -/
def s8 : LRU_K_Cache Nat Nat :=
  { capacity_ := 2
    k_ := 1
    cache_ := [{ key_ := 0, value_ := 10, history_ := [1], is_evictable_ := true }]
    eviction_keys_ := [0]
    current_timestamp_ := 1 }

/-- A full history of length `2^31` whose oldest retained timestamp is 9. -/
def hWrap9 : List Nat := List.replicate (2 ^ 31) 9

/-- A full history of length `2^31` whose oldest retained timestamp is 3. -/
def hWrap3 : List Nat := List.replicate (2 ^ 31) 3

/-- A well-formed state at capacity for `K = 2^31`: the comparator's
narrowed `int k_` wraps negative there, so the eviction set is ordered by
key alone. Key 0 carries the newer oldest-timestamp (9), key 1 the older
one (3). -/
def sWrap : LRU_K_Cache Nat Nat :=
  { capacity_ := 2
    k_ := 2 ^ 31
    cache_ := [{ key_ := 0, value_ := 0, history_ := hWrap9, is_evictable_ := true },
               { key_ := 1, value_ := 0, history_ := hWrap3, is_evictable_ := true }]
    eviction_keys_ := [0, 1]
    current_timestamp_ := 10 }

end LiteSTL

/-! ### Lemmas about the index and eviction-set primitives -/

namespace LiteSTL

variable {K V : Type} [LinearOrder K]

theorem lookupNode_eq_some {l : List (LRUNode K V)} {key : K} {n : LRUNode K V}
    (h : lookupNode l key = some n) : n ∈ l ∧ n.key_ = key := by
  refine ⟨List.mem_of_find?_eq_some h, ?_⟩
  have := List.find?_some h
  exact of_decide_eq_true this

theorem lookupNode_eq_none {l : List (LRUNode K V)} {key : K} :
    lookupNode l key = none ↔ ∀ n ∈ l, n.key_ ≠ key := by
  unfold lookupNode
  rw [List.find?_eq_none]
  simp

theorem lookupNode_isSome {l : List (LRUNode K V)} {key : K} :
    (lookupNode l key).isSome ↔ ∃ n ∈ l, n.key_ = key := by
  unfold lookupNode
  rw [List.find?_isSome]
  simp

theorem lookupNode_of_mem {l : List (LRUNode K V)} {n : LRUNode K V}
    (hnd : (l.map fun m => m.key_).Nodup) (hm : n ∈ l) :
    lookupNode l n.key_ = some n := by
  induction l with
  | nil => cases hm
  | cons a t ih =>
    rcases List.mem_cons.mp hm with rfl | hmt
    · simp [lookupNode, List.find?]
    · have hne : a.key_ ≠ n.key_ := by
        intro hEq
        have : n.key_ ∈ t.map fun m => m.key_ := List.mem_map_of_mem _ hmt
        rw [← hEq] at this
        exact (List.nodup_cons.mp hnd).1 this
      have ht : (t.map fun m => m.key_).Nodup := (List.nodup_cons.mp hnd).2
      simp only [lookupNode, List.find?] at *
      rw [decide_eq_false hne]
      exact ih ht hmt

theorem updateNode_map_key {l : List (LRUNode K V)} {key : K}
    {n' : LRUNode K V} (h : n'.key_ = key) :
    ((updateNode l key n').map fun m => m.key_) = l.map fun m => m.key_ := by
  unfold updateNode
  rw [List.map_map]
  refine List.map_congr_left ?_
  intro a _
  by_cases ha : a.key_ = key
  · simp [ha, h]
  · simp [ha]

theorem length_updateNode {l : List (LRUNode K V)} {key : K}
    {n' : LRUNode K V} : (updateNode l key n').length = l.length :=
  List.length_map l _

theorem mem_updateNode_cases {l : List (LRUNode K V)} {key : K}
    {n' m : LRUNode K V} (h : m ∈ updateNode l key n') :
    m = n' ∨ (m ∈ l ∧ m.key_ ≠ key) := by
  unfold updateNode at h
  rcases List.mem_map.mp h with ⟨a, ha, hfa⟩
  by_cases hk : a.key_ = key
  · left
    rw [if_pos hk] at hfa
    exact hfa.symm
  · right
    rw [if_neg hk] at hfa
    exact hfa ▸ ⟨ha, hk⟩

theorem lookupNode_updateNode_self {l : List (LRUNode K V)} {key : K}
    {n' : LRUNode K V} (hk : n'.key_ = key)
    (h : (lookupNode l key).isSome) :
    lookupNode (updateNode l key n') key = some n' := by
  induction l with
  | nil => simp [lookupNode] at h
  | cons a t ih =>
    by_cases ha : a.key_ = key
    · simp [lookupNode, updateNode, List.find?, ha, hk]
    · simp only [lookupNode, updateNode, List.map, List.find?, if_neg ha,
        decide_eq_false ha] at h ⊢
      exact ih h

theorem lookupNode_updateNode_ne {l : List (LRUNode K V)} {key key' : K}
    {n' : LRUNode K V} (hk : n'.key_ = key) (hne : key' ≠ key) :
    lookupNode (updateNode l key n') key' = lookupNode l key' := by
  induction l with
  | nil => rfl
  | cons a t ih =>
    simp only [updateNode, List.map] at ih ⊢
    unfold lookupNode at ih ⊢
    by_cases ha : a.key_ = key
    · have h1 : ¬ n'.key_ = key' := fun hc => hne (hc ▸ hk)
      have h2 : ¬ a.key_ = key' := fun hc => hne (hc ▸ ha)
      rw [if_pos ha, List.find?_cons_of_neg _ (by simpa using h1),
        List.find?_cons_of_neg _ (by simpa using h2)]
      exact ih
    · rw [if_neg ha]
      by_cases ha' : a.key_ = key'
      · rw [List.find?_cons_of_pos _ (by simpa using ha'),
          List.find?_cons_of_pos _ (by simpa using ha')]
      · rw [List.find?_cons_of_neg _ (by simpa using ha'),
          List.find?_cons_of_neg _ (by simpa using ha')]
        exact ih

theorem mem_removeNodeKey {l : List (LRUNode K V)} {key : K}
    {m : LRUNode K V} : m ∈ removeNodeKey l key ↔ m ∈ l ∧ m.key_ ≠ key := by
  unfold removeNodeKey
  rw [List.mem_filter]
  simp

theorem lookupNode_removeNodeKey_self {l : List (LRUNode K V)} {key : K} :
    lookupNode (removeNodeKey l key) key = none := by
  rw [lookupNode_eq_none]
  intro n hn
  exact (mem_removeNodeKey.mp hn).2

theorem lookupNode_removeNodeKey_ne {l : List (LRUNode K V)} {key key' : K}
    (hne : key' ≠ key) :
    lookupNode (removeNodeKey l key) key' = lookupNode l key' := by
  induction l with
  | nil => rfl
  | cons a t ih =>
    unfold removeNodeKey lookupNode at ih ⊢
    by_cases ha : a.key_ = key
    · have h2 : ¬ a.key_ = key' := fun hc => hne (hc ▸ ha)
      rw [List.filter_cons_of_neg (by simp [ha]),
        List.find?_cons_of_neg _ (by simpa using h2)]
      exact ih
    · rw [List.filter_cons_of_pos (by simpa using ha)]
      by_cases ha' : a.key_ = key'
      · rw [List.find?_cons_of_pos _ (by simpa using ha'),
          List.find?_cons_of_pos _ (by simpa using ha')]
      · rw [List.find?_cons_of_neg _ (by simpa using ha'),
          List.find?_cons_of_neg _ (by simpa using ha')]
        exact ih

theorem removeNodeKey_keys_nodup {l : List (LRUNode K V)} {key : K}
    (h : (l.map fun m => m.key_).Nodup) :
    ((removeNodeKey l key).map fun m => m.key_).Nodup :=
  h.sublist ((List.filter_sublist l).map _)

theorem length_removeNodeKey {l : List (LRUNode K V)} {key : K}
    {n : LRUNode K V} (hnd : (l.map fun m => m.key_).Nodup)
    (h : lookupNode l key = some n) :
    (removeNodeKey l key).length + 1 = l.length := by
  induction l with
  | nil => cases h
  | cons a t ih =>
    by_cases ha : a.key_ = key
    · have ht : removeNodeKey t key = t := by
        refine List.filter_eq_self.mpr ?_
        intro m hm
        refine decide_eq_true ?_
        intro hc
        have : m.key_ ∈ t.map fun x => x.key_ := List.mem_map_of_mem _ hm
        rw [hc, ← ha] at this
        exact (List.nodup_cons.mp hnd).1 this
      have hstep : removeNodeKey (a :: t) key = removeNodeKey t key := by
        unfold removeNodeKey
        exact List.filter_cons_of_neg (by simp [ha])
      rw [hstep, ht, List.length_cons]
    · have ht : (t.map fun m => m.key_).Nodup := (List.nodup_cons.mp hnd).2
      have h' : lookupNode t key = some n := by
        unfold lookupNode at h ⊢
        rwa [List.find?_cons_of_neg _ (by simpa using ha)] at h
      have hstep : removeNodeKey (a :: t) key = a :: removeNodeKey t key := by
        unfold removeNodeKey
        exact List.filter_cons_of_pos (by simpa using ha)
      rw [hstep, List.length_cons, List.length_cons, ih ht h']

theorem mem_eraseKey {l : List K} {key a : K} :
    a ∈ eraseKey l key ↔ a ∈ l ∧ a ≠ key := by
  unfold eraseKey
  rw [List.mem_filter]
  simp

theorem eraseKey_nodup {l : List K} {key : K} (h : l.Nodup) :
    (eraseKey l key).Nodup :=
  h.sublist (List.filter_sublist l)

theorem eraseKey_of_not_mem {l : List K} {key : K} (h : key ∉ l) :
    eraseKey l key = l := by
  refine List.filter_eq_self.mpr ?_
  intro a ha
  exact decide_eq_true fun hc => h (hc ▸ ha)

theorem mem_setInsert {l : List K} {key a : K} :
    a ∈ setInsert l key ↔ a = key ∨ a ∈ l := by
  unfold setInsert
  by_cases h : key ∈ l
  · rw [if_pos h]
    constructor
    · exact Or.inr
    · rintro (rfl | ha)
      · exact h
      · exact ha
  · rw [if_neg h]
    exact List.mem_cons

theorem setInsert_nodup {l : List K} {key : K} (h : l.Nodup) :
    (setInsert l key).Nodup := by
  unfold setInsert
  by_cases hm : key ∈ l
  · rwa [if_pos hm]
  · rw [if_neg hm]
    exact List.nodup_cons.mpr ⟨hm, h⟩

theorem mem_members {s : LRU_K_Cache K V} {n : LRUNode K V} :
    n ∈ members s ↔ ∃ k ∈ s.eviction_keys_, lookupNode s.cache_ k = some n := by
  unfold members
  exact List.mem_filterMap

end LiteSTL

/-! ### Lemmas about the derived set order -/

namespace LiteSTL

variable {K V : Type} [LinearOrder K]

theorem mem_insertSorted {α : Type} {lt : α → α → Bool} {a b : α}
    {l : List α} : b ∈ insertSorted lt a l ↔ b = a ∨ b ∈ l := by
  induction l with
  | nil => simp [insertSorted]
  | cons c t ih =>
    simp only [insertSorted]
    by_cases h : lt a c = true
    · rw [if_pos h]
      simp only [List.mem_cons]
    · rw [if_neg h]
      simp only [List.mem_cons, ih]
      tauto

theorem length_insertSorted {α : Type} {lt : α → α → Bool} {a : α}
    {l : List α} : (insertSorted lt a l).length = l.length + 1 := by
  induction l with
  | nil => rfl
  | cons c t ih =>
    simp only [insertSorted]
    by_cases h : lt a c = true
    · rw [if_pos h]
      rfl
    · rw [if_neg h]
      simp [ih]

theorem mem_sortBy {α : Type} {lt : α → α → Bool} {b : α} {l : List α} :
    b ∈ sortBy lt l ↔ b ∈ l := by
  induction l with
  | nil => exact Iff.rfl
  | cons a t ih =>
    simp only [sortBy, mem_insertSorted, List.mem_cons, ih]

theorem length_sortBy {α : Type} {lt : α → α → Bool} {l : List α} :
    (sortBy lt l).length = l.length := by
  induction l with
  | nil => rfl
  | cons a t ih =>
    simp only [sortBy, length_insertSorted, ih, List.length_cons]

theorem sortBy_eq_nil_iff {α : Type} {lt : α → α → Bool} {l : List α} :
    sortBy lt l = [] ↔ l = [] := by
  constructor
  · intro h
    have this : (sortBy lt l).length = l.length := length_sortBy
    rw [h] at this
    exact List.length_eq_zero.mp this.symm
  · rintro rfl
    rfl

/-- The first element of the derived set order is minimal: no element of the
underlying list sorts strictly before it (for an irreflexive transitive
boolean order). -/
theorem head_sortBy_min {α : Type} {lt : α → α → Bool}
    (hirr : ∀ a, lt a a = false)
    (htr : ∀ a b c, lt a b = true → lt b c = true → lt a c = true) :
    ∀ (l : List α) (m : α), (sortBy lt l).head? = some m →
      m ∈ l ∧ ∀ b ∈ l, lt b m = false := by
  intro l
  induction l with
  | nil => intro m h; cases h
  | cons a rest ih =>
    intro m h
    simp only [sortBy] at h
    cases hrest : sortBy lt rest with
    | nil =>
      rw [hrest] at h
      have hm : a = m := by simpa [insertSorted] using h
      subst hm
      have hr : rest = [] := sortBy_eq_nil_iff.mp hrest
      subst hr
      refine ⟨List.mem_cons_self a [], ?_⟩
      intro b hb
      rcases List.mem_cons.mp hb with rfl | hbr
      · exact hirr b
      · cases hbr
    | cons m' t =>
      rw [hrest] at h
      have ihm := ih m' (by rw [hrest]; rfl)
      simp only [insertSorted] at h
      by_cases hlt : lt a m' = true
      · rw [if_pos hlt] at h
        have hm : a = m := by simpa using h
        subst hm
        refine ⟨List.mem_cons_self a rest, ?_⟩
        intro b hb
        rcases List.mem_cons.mp hb with rfl | hbr
        · exact hirr b
        · by_contra hba
          have hba' : lt b a = true := by
            cases hv : lt b a
            · exact absurd hv hba
            · rfl
          have : lt b m' = true := htr b a m' hba' hlt
          rw [ihm.2 b hbr] at this
          cases this
      · rw [if_neg hlt] at h
        have hm : m' = m := by simpa using h
        subst hm
        refine ⟨List.mem_cons_of_mem _ ihm.1, ?_⟩
        intro b hb
        rcases List.mem_cons.mp hb with rfl | hbr
        · cases hv : lt b m'
          · rfl
          · exact absurd hv hlt
        · exact ihm.2 b hbr

theorem find?_all_true {α : Type} {p : α → Bool} {l : List α}
    (h : ∀ x ∈ l, p x = true) : l.find? p = l.head? := by
  cases l with
  | nil => rfl
  | cons a t =>
    rw [List.find?_cons_of_pos t (h a (List.mem_cons_self a t))]
    rfl

/-- Characterization of the comparator as a three-class lexicographic
strict order (entries below the effective threshold after those at or above
it; fronts then keys). -/
theorem Compare_eq_true_iff {k : Nat} {a b : LRUNode K V} :
    Compare k a b = true ↔
      ((a.history_.length < sizeTK k ∧ b.history_.length < sizeTK k ∧
          a.key_ < b.key_) ∨
       (¬ a.history_.length < sizeTK k ∧ b.history_.length < sizeTK k) ∨
       (¬ a.history_.length < sizeTK k ∧ ¬ b.history_.length < sizeTK k ∧
         (a.history_.headD 0 < b.history_.headD 0 ∨
          (a.history_.headD 0 = b.history_.headD 0 ∧ a.key_ < b.key_)))) := by
  unfold Compare
  split_ifs with h1 h2 h3 h4 <;> simp_all <;>
    first
    | tauto
    | (exfalso; omega)
    | (constructor
       · intro h
         exact Or.inr (Or.inr h)
       · rintro (⟨h5, h6, h7⟩ | h5 | h5)
         · exfalso; omega
         · exfalso; omega
         · exact h5)

theorem Compare_irrefl {k : Nat} (a : LRUNode K V) : Compare k a a = false := by
  cases hv : Compare k a a
  · rfl
  · rcases Compare_eq_true_iff.mp hv with ⟨_, _, hlt⟩ | ⟨hn, hy⟩ | ⟨_, _, hlt | ⟨_, hlt⟩⟩
    · exact absurd hlt (lt_irrefl _)
    · exact absurd hy hn
    · exact absurd hlt (lt_irrefl _)
    · exact absurd hlt (lt_irrefl _)

theorem Compare_trans {k : Nat} {a b c : LRUNode K V}
    (hab : Compare k a b = true) (hbc : Compare k b c = true) :
    Compare k a c = true := by
  rw [Compare_eq_true_iff] at hab hbc ⊢
  rcases hab with ⟨ha1, hb1, hk1⟩ | ⟨ha1, hb1⟩ | ⟨ha1, hb1, hf1⟩ <;>
    rcases hbc with ⟨hb2, hc2, hk2⟩ | ⟨hb2, hc2⟩ | ⟨hb2, hc2, hf2⟩
  · exact Or.inl ⟨ha1, hc2, lt_trans hk1 hk2⟩
  · exact absurd hb1 hb2
  · exact absurd hb1 hb2
  · exact Or.inr (Or.inl ⟨ha1, hc2⟩)
  · exact absurd hb1 hb2
  · exact absurd hb1 hb2
  · exact absurd hb2 hb1
  · exact Or.inr (Or.inl ⟨ha1, hc2⟩)
  · refine Or.inr (Or.inr ⟨ha1, hc2, ?_⟩)
    rcases hf1 with hlt1 | ⟨he1, hk1⟩ <;> rcases hf2 with hlt2 | ⟨he2, hk2⟩
    · exact Or.inl (lt_trans hlt1 hlt2)
    · exact Or.inl (he2 ▸ hlt1)
    · exact Or.inl (he1 ▸ hlt2)
    · exact Or.inr ⟨he1.trans he2, lt_trans hk1 hk2⟩

/-- For `k < 2^31` the narrowed `int k_` equals `k`, and so does the
effective `size_t` threshold. -/
theorem sizeTK_eq_of_lt {k : Nat} (hk32 : k < 2 ^ 31) : sizeTK k = k := by
  unfold sizeTK
  rw [Nat.mod_eq_of_lt (by omega)]
  rw [if_pos hk32]

/-- Below the effective threshold on both sides, the comparator orders by
key alone. -/
theorem Compare_below_both {k : Nat} {a b : LRUNode K V}
    (ha : a.history_.length < sizeTK k) (hb : b.history_.length < sizeTK k) :
    Compare k a b = decide (a.key_ < b.key_) := by
  unfold Compare
  rw [if_pos ⟨ha, hb⟩]

/-- Connexity of the comparator on full-history entries with distinct keys,
in the regime where the narrowed `int k_` has not wrapped. -/
theorem Compare_connex_full {k : Nat} {a b : LRUNode K V}
    (hk32 : k < 2 ^ 31)
    (ha : a.history_.length = k) (hb : b.history_.length = k)
    (hne : a.key_ ≠ b.key_) (hab : Compare k a b = false) :
    Compare k b a = true := by
  have hsk : sizeTK k = k := sizeTK_eq_of_lt hk32
  rw [Compare_eq_true_iff, hsk]
  refine Or.inr (Or.inr ⟨by omega, by omega, ?_⟩)
  rcases lt_trichotomy (b.history_.headD 0) (a.history_.headD 0) with hlt | heq | hgt
  · exact Or.inl hlt
  · refine Or.inr ⟨heq, ?_⟩
    rcases lt_trichotomy b.key_ a.key_ with hk | hk | hk
    · exact hk
    · exact absurd hk.symm hne
    · exfalso
      have : Compare k a b = true := by
        rw [Compare_eq_true_iff]
        exact Or.inr (Or.inr ⟨by omega, by omega, Or.inr ⟨heq.symm, hk⟩⟩)
      rw [hab] at this
      cases this
  · exfalso
    have : Compare k a b = true := by
      rw [Compare_eq_true_iff]
      exact Or.inr (Or.inr ⟨by omega, by omega, Or.inl hgt⟩)
    rw [hab] at this
    cases this

end LiteSTL

/-! ### Preservation of well-formedness -/

namespace LiteSTL

variable {K V : Type} [LinearOrder K]

theorem lookupNode_cons_isSome {l : List (LRUNode K V)} {a : K}
    {n : LRUNode K V} (h : (lookupNode l a).isSome) :
    (lookupNode (n :: l) a).isSome := by
  unfold lookupNode at h ⊢
  by_cases hn : n.key_ = a
  · rw [List.find?_cons_of_pos _ (by simpa using hn)]
    rfl
  · rwa [List.find?_cons_of_neg _ (by simpa using hn)]

theorem updateValue_map_key {l : List (LRUNode K V)} {key : K} {v : V} :
    ((updateValue l key v).map fun m => m.key_) = l.map fun m => m.key_ := by
  unfold updateValue
  rw [List.map_map]
  refine List.map_congr_left ?_
  intro a _
  by_cases ha : a.key_ = key
  · simp [ha]
  · simp [ha]

theorem mem_updateValue_cases {l : List (LRUNode K V)} {key : K} {v : V}
    {m : LRUNode K V} (h : m ∈ updateValue l key v) :
    ∃ n ∈ l, m.key_ = n.key_ ∧ m.history_ = n.history_ ∧
      m.is_evictable_ = n.is_evictable_ := by
  unfold updateValue at h
  rcases List.mem_map.mp h with ⟨a, ha, hfa⟩
  refine ⟨a, ha, ?_⟩
  by_cases hk : a.key_ = key
  · rw [if_pos hk] at hfa
    rw [← hfa]
    exact ⟨rfl, rfl, rfl⟩
  · rw [if_neg hk] at hfa
    rw [← hfa]
    exact ⟨rfl, rfl, rfl⟩

theorem lookupNode_updateValue_isSome {l : List (LRUNode K V)} {key a : K}
    {v : V} : (lookupNode (updateValue l key v) a).isSome =
      (lookupNode l a).isSome := by
  by_cases h : (lookupNode l a).isSome
  · rw [h]
    rw [lookupNode_isSome] at h
    rw [lookupNode_isSome]
    obtain ⟨n, hn, hkey⟩ := h
    by_cases hk : n.key_ = key
    · refine ⟨{ n with value_ := v }, ?_, hkey⟩
      unfold updateValue
      exact List.mem_map.mpr ⟨n, hn, by rw [if_pos hk]⟩
    · refine ⟨n, ?_, hkey⟩
      unfold updateValue
      exact List.mem_map.mpr ⟨n, hn, by rw [if_neg hk]⟩
  · have hf : (lookupNode l a).isSome = false := by
      cases hv : (lookupNode l a).isSome
      · rfl
      · exact absurd hv h
    rw [hf]
    cases hv : (lookupNode (updateValue l key v) a).isSome
    · rfl
    · exfalso
      obtain ⟨m, hm, hkey⟩ := lookupNode_isSome.mp hv
      obtain ⟨n, hn, hk, _, _⟩ := mem_updateValue_cases hm
      have hs : (lookupNode l a).isSome := lookupNode_isSome.mpr ⟨n, hn, hk ▸ hkey⟩
      rw [hf] at hs
      cases hs

/-- Replacing the node stored under `key` preserves well-formedness when the
replacement carries the same key, a bounded history, and eviction-set
bookkeeping consistent with its new history length. -/
theorem WF_update_general {s : LRU_K_Cache K V} {key : K}
    {node node' : LRUNode K V} {ev' : List K} {ts' : Nat}
    (hwf : WF s) (hin : node ∈ s.cache_) (hkey : node.key_ = key)
    (hkey' : node'.key_ = key)
    (hlen : node'.history_.length ≤ s.k_)
    (hmem' : key ∈ ev' ↔ node'.history_.length = s.k_)
    (hev' : node'.is_evictable_ = decide (node'.history_.length = s.k_))
    (hevset : ∀ a, a ≠ key → (a ∈ ev' ↔ a ∈ s.eviction_keys_))
    (hnde' : ev'.Nodup) :
    WF { s with cache_ := updateNode s.cache_ key node'
                eviction_keys_ := ev'
                current_timestamp_ := ts' } := by
  obtain ⟨hk, hnd, hnde, hsub, hbound, hmem, hev⟩ := hwf
  have hlook : lookupNode s.cache_ key = some node := by
    have := lookupNode_of_mem hnd hin
    rwa [hkey] at this
  refine ⟨hk, ?_, hnde', ?_, ?_, ?_, ?_⟩
  · rw [updateNode_map_key hkey']
    exact hnd
  · intro a ha
    by_cases hak : a = key
    · subst hak
      rw [lookupNode_updateNode_self hkey' (by rw [hlook]; rfl)]
      rfl
    · rw [lookupNode_updateNode_ne hkey' hak]
      exact hsub a ((hevset a hak).mp ha)
  · intro m hm
    rcases mem_updateNode_cases hm with rfl | ⟨hml, _⟩
    · exact hlen
    · exact hbound m hml
  · intro m hm
    rcases mem_updateNode_cases hm with rfl | ⟨hml, hmk⟩
    · rw [hkey']
      exact hmem'
    · rw [hevset m.key_ hmk]
      exact hmem m hml
  · intro m hm
    rcases mem_updateNode_cases hm with rfl | ⟨hml, _⟩
    · exact hev'
    · exact hev m hml

/-- Overwriting a stored value (`node->value_ = value`) preserves
well-formedness. -/
theorem WF_updateValue {s : LRU_K_Cache K V} {key : K} {v : V}
    (hwf : WF s) : WF { s with cache_ := updateValue s.cache_ key v } := by
  obtain ⟨hk, hnd, hnde, hsub, hbound, hmem, hev⟩ := hwf
  refine ⟨hk, ?_, hnde, ?_, ?_, ?_, ?_⟩
  · rw [updateValue_map_key]
    exact hnd
  · intro a ha
    rw [lookupNode_updateValue_isSome]
    exact hsub a ha
  · intro m hm
    obtain ⟨n, hn, _, hh, _⟩ := mem_updateValue_cases hm
    rw [hh]
    exact hbound n hn
  · intro m hm
    obtain ⟨n, hn, hk', hh, _⟩ := mem_updateValue_cases hm
    rw [hk', hh]
    exact hmem n hn
  · intro m hm
    obtain ⟨n, hn, _, hh, he⟩ := mem_updateValue_cases hm
    rw [he, hh]
    exact hev n hn

/-- Deleting one key from both the index and the eviction set preserves
well-formedness. -/
theorem WF_delete {s : LRU_K_Cache K V} {key : K} (hwf : WF s) :
    WF { s with cache_ := removeNodeKey s.cache_ key
                eviction_keys_ := eraseKey s.eviction_keys_ key } := by
  obtain ⟨hk, hnd, hnde, hsub, hbound, hmem, hev⟩ := hwf
  refine ⟨hk, removeNodeKey_keys_nodup hnd, eraseKey_nodup hnde, ?_, ?_, ?_, ?_⟩
  · intro a ha
    obtain ⟨haev, hane⟩ := mem_eraseKey.mp ha
    rw [lookupNode_removeNodeKey_ne hane]
    exact hsub a haev
  · intro m hm
    exact hbound m (mem_removeNodeKey.mp hm).1
  · intro m hm
    obtain ⟨hml, hmne⟩ := mem_removeNodeKey.mp hm
    rw [mem_eraseKey]
    constructor
    · rintro ⟨hmev, _⟩
      exact (hmem m hml).mp hmev
    · intro hlen
      exact ⟨(hmem m hml).mpr hlen, hmne⟩
  · intro m hm
    exact hev m (mem_removeNodeKey.mp hm).1

/-- Inserting a fresh node (empty history, not evictable) for an absent key
preserves well-formedness. -/
theorem WF_insert_new {s : LRU_K_Cache K V} {key : K} {value : V}
    (hwf : WF s) (hl : lookupNode s.cache_ key = none) :
    WF { s with cache_ :=
      ({ key_ := key, value_ := value, history_ := [],
         is_evictable_ := false } : LRUNode K V) :: s.cache_ } := by
  obtain ⟨hk, hnd, hnde, hsub, hbound, hmem, hev⟩ := hwf
  have habs : ∀ n ∈ s.cache_, n.key_ ≠ key := lookupNode_eq_none.mp hl
  have hkev : key ∉ s.eviction_keys_ := by
    intro hc
    have := hsub key hc
    rw [lookupNode_isSome] at this
    obtain ⟨n, hn, hkey⟩ := this
    exact habs n hn hkey
  refine ⟨hk, ?_, hnde, ?_, ?_, ?_, ?_⟩
  · rw [List.map_cons]
    refine List.nodup_cons.mpr ⟨?_, hnd⟩
    intro hc
    rcases List.mem_map.mp hc with ⟨n, hn, hkey⟩
    exact habs n hn hkey
  · intro a ha
    exact lookupNode_cons_isSome (hsub a ha)
  · intro m hm
    rcases List.mem_cons.mp hm with rfl | hml
    · exact Nat.zero_le _
    · exact hbound m hml
  · intro m hm
    rcases List.mem_cons.mp hm with rfl | hml
    · constructor
      · intro hc
        exact absurd hc hkev
      · intro hc
        have hc' : (0 : Nat) = s.k_ := hc
        omega
    · exact hmem m hml
  · intro m hm
    rcases List.mem_cons.mp hm with rfl | hml
    · have : (0 : Nat) ≠ s.k_ := by omega
      simp [this]
    · exact hev m hml

theorem Evict_cache_cases (s : LRU_K_Cache K V) :
    (Evict s).cache_ = s.cache_ ∨
      ∃ key', (Evict s).cache_ = removeNodeKey s.cache_ key' := by
  unfold Evict
  split_ifs with h
  · exact Or.inl rfl
  · cases hf : (sortBy (Compare s.k_) (members s)).find? (fun n => n.is_evictable_) with
    | none => exact Or.inl rfl
    | some node => exact Or.inr ⟨node.key_, rfl⟩

theorem lookupNode_Evict_none {s : LRU_K_Cache K V} {key : K}
    (hl : lookupNode s.cache_ key = none) :
    lookupNode (Evict s).cache_ key = none := by
  rcases Evict_cache_cases s with he | ⟨key', he⟩
  · rw [he]
    exact hl
  · rw [he]
    by_cases hk : key = key'
    · subst hk
      exact lookupNode_removeNodeKey_self
    · rw [lookupNode_removeNodeKey_ne hk]
      exact hl

theorem Evict_capacity (s : LRU_K_Cache K V) :
    (Evict s).capacity_ = s.capacity_ := by
  unfold Evict
  split_ifs with h
  · rfl
  · cases hf : (sortBy (Compare s.k_) (members s)).find? (fun n => n.is_evictable_) with
    | none => rfl
    | some node => rfl

theorem Evict_k (s : LRU_K_Cache K V) : (Evict s).k_ = s.k_ := by
  unfold Evict
  split_ifs with h
  · rfl
  · cases hf : (sortBy (Compare s.k_) (members s)).find? (fun n => n.is_evictable_) with
    | none => rfl
    | some node => rfl

theorem Evict_timestamp (s : LRU_K_Cache K V) :
    (Evict s).current_timestamp_ = s.current_timestamp_ := by
  unfold Evict
  split_ifs with h
  · rfl
  · cases hf : (sortBy (Compare s.k_) (members s)).find? (fun n => n.is_evictable_) with
    | none => rfl
    | some node => rfl

theorem ResourceAccess_capacity (s : LRU_K_Cache K V) (key : K) :
    (ResourceAccess s key).1.capacity_ = s.capacity_ := by
  unfold ResourceAccess
  split_ifs with h
  · rfl
  · cases hl : lookupNode s.cache_ key with
    | none => rfl
    | some node => rfl

theorem ResourceAccess_k (s : LRU_K_Cache K V) (key : K) :
    (ResourceAccess s key).1.k_ = s.k_ := by
  unfold ResourceAccess
  split_ifs with h
  · rfl
  · cases hl : lookupNode s.cache_ key with
    | none => rfl
    | some node => rfl

theorem ResourceAccess_size (s : LRU_K_Cache K V) (key : K) :
    size (ResourceAccess s key).1 = size s := by
  unfold ResourceAccess
  split_ifs with h
  · rfl
  · cases hl : lookupNode s.cache_ key with
    | none => rfl
    | some node =>
      simp only [size]
      exact length_updateNode

end LiteSTL

namespace LiteSTL

variable {K V : Type} [LinearOrder K]

/-- `ResourceAccess` on a node already at full history: the node is pulled
out of the eviction set, the new timestamp is appended, the oldest one
dropped, and the node is reinserted. -/
theorem ResourceAccess_eq_full {s : LRU_K_Cache K V} {key : K}
    {node : LRUNode K V} (hts : ¬ s.current_timestamp_ = timestampMax)
    (hl : lookupNode s.cache_ key = some node)
    (hfull : node.history_.length = s.k_) :
    ResourceAccess s key =
      ({ s with
          cache_ := updateNode s.cache_ key
            { node with
              history_ := (node.history_ ++ [s.current_timestamp_ + 1]).tail
              is_evictable_ := true }
          eviction_keys_ := setInsert (eraseKey s.eviction_keys_ key) key
          current_timestamp_ := s.current_timestamp_ + 1 }, false) := by
  have hc1 : s.k_ < (node.history_ ++ [s.current_timestamp_ + 1]).length := by
    rw [List.length_append]
    simp [hfull]
  have hc2 : ((node.history_ ++ [s.current_timestamp_ + 1]).tail).length = s.k_ := by
    rw [List.length_tail, List.length_append]
    simp [hfull]
  unfold ResourceAccess
  rw [if_neg hts, hl]
  simp only [if_pos hfull, if_pos hc1, if_pos hc2]

/-- `ResourceAccess` on a node one access short of full history: the new
timestamp is appended, the node becomes evictable and joins the eviction
set. -/
theorem ResourceAccess_eq_reach {s : LRU_K_Cache K V} {key : K}
    {node : LRUNode K V} (hts : ¬ s.current_timestamp_ = timestampMax)
    (hl : lookupNode s.cache_ key = some node)
    (hreach : node.history_.length + 1 = s.k_) :
    ResourceAccess s key =
      ({ s with
          cache_ := updateNode s.cache_ key
            { node with
              history_ := node.history_ ++ [s.current_timestamp_ + 1]
              is_evictable_ := true }
          eviction_keys_ := setInsert s.eviction_keys_ key
          current_timestamp_ := s.current_timestamp_ + 1 }, false) := by
  have hne : ¬ node.history_.length = s.k_ := by omega
  have hc1 : ¬ s.k_ < (node.history_ ++ [s.current_timestamp_ + 1]).length := by
    rw [List.length_append]
    simp only [List.length_cons, List.length_nil]
    omega
  have hc2 : (node.history_ ++ [s.current_timestamp_ + 1]).length = s.k_ := by
    rw [List.length_append]
    simpa using hreach
  unfold ResourceAccess
  rw [if_neg hts, hl]
  simp only [if_neg hne, if_neg hc1, if_pos hc2]

/-- `ResourceAccess` on a node still more than one access short of full
history: the timestamp is appended; the eviction set is untouched. -/
theorem ResourceAccess_eq_below {s : LRU_K_Cache K V} {key : K}
    {node : LRUNode K V} (hts : ¬ s.current_timestamp_ = timestampMax)
    (hl : lookupNode s.cache_ key = some node)
    (hlt : node.history_.length + 1 < s.k_) :
    ResourceAccess s key =
      ({ s with
          cache_ := updateNode s.cache_ key
            { node with history_ := node.history_ ++ [s.current_timestamp_ + 1] }
          eviction_keys_ := s.eviction_keys_
          current_timestamp_ := s.current_timestamp_ + 1 }, false) := by
  have hne : ¬ node.history_.length = s.k_ := by omega
  have hc1 : ¬ s.k_ < (node.history_ ++ [s.current_timestamp_ + 1]).length := by
    rw [List.length_append]
    simp only [List.length_cons, List.length_nil]
    omega
  have hc2 : ¬ (node.history_ ++ [s.current_timestamp_ + 1]).length = s.k_ := by
    rw [List.length_append]
    simp only [List.length_cons, List.length_nil]
    omega
  unfold ResourceAccess
  rw [if_neg hts, hl]
  simp only [if_neg hne, if_neg hc1, if_neg hc2]

theorem WF_ResourceAccess {s : LRU_K_Cache K V} {key : K} (hwf : WF s) :
    WF (ResourceAccess s key).1 := by
  by_cases hts : s.current_timestamp_ = timestampMax
  · unfold ResourceAccess
    rw [if_pos hts]
    exact hwf
  · cases hl : lookupNode s.cache_ key with
    | none =>
      unfold ResourceAccess
      rw [if_neg hts, hl]
      exact hwf
    | some node =>
      obtain ⟨hin, hkey⟩ := lookupNode_eq_some hl
      have hwf2 := hwf
      obtain ⟨hk, hnd, hnde, hsub, hbound, hmem, hev⟩ := hwf2
      have hbn : node.history_.length ≤ s.k_ := hbound node hin
      by_cases hfull : node.history_.length = s.k_
      · rw [ResourceAccess_eq_full hts hl hfull]
        have hc2 : ((node.history_ ++ [s.current_timestamp_ + 1]).tail).length = s.k_ := by
          rw [List.length_tail, List.length_append]
          simp [hfull]
        refine WF_update_general hwf hin hkey hkey ?_ ?_ ?_ ?_ ?_
        · rw [hc2]
        · refine iff_of_true (mem_setInsert.mpr (Or.inl rfl)) hc2
        · rw [hc2]
          simp
        · intro a hane
          rw [mem_setInsert, mem_eraseKey]
          constructor
          · rintro (rfl | ⟨ha, _⟩)
            · exact absurd rfl hane
            · exact ha
          · intro ha
            exact Or.inr ⟨ha, hane⟩
        · exact setInsert_nodup (eraseKey_nodup hnde)
      · by_cases hreach : node.history_.length + 1 = s.k_
        · rw [ResourceAccess_eq_reach hts hl hreach]
          have hc2 : (node.history_ ++ [s.current_timestamp_ + 1]).length = s.k_ := by
            rw [List.length_append]
            simpa using hreach
          refine WF_update_general hwf hin hkey hkey ?_ ?_ ?_ ?_ ?_
          · rw [hc2]
          · refine iff_of_true (mem_setInsert.mpr (Or.inl rfl)) hc2
          · rw [hc2]
            simp
          · intro a hane
            rw [mem_setInsert]
            constructor
            · rintro (rfl | ha)
              · exact absurd rfl hane
              · exact ha
            · exact Or.inr
          · exact setInsert_nodup hnde
        · have hlt : node.history_.length + 1 < s.k_ := by omega
          rw [ResourceAccess_eq_below hts hl hlt]
          have hc2 : ¬ (node.history_ ++ [s.current_timestamp_ + 1]).length = s.k_ := by
            rw [List.length_append]
            simp only [List.length_cons, List.length_nil]
            omega
          refine WF_update_general hwf hin hkey hkey ?_ ?_ ?_ ?_ ?_
          · rw [List.length_append]
            simp only [List.length_cons, List.length_nil]
            omega
          · refine iff_of_false ?_ hc2
            intro hc
            exact hfull ((hmem node hin).mp (hkey.symm ▸ hc))
          · rw [hev node hin, decide_eq_false hfull, decide_eq_false hc2]
          · intro a _
            exact Iff.rfl
          · exact hnde

theorem WF_Evict {s : LRU_K_Cache K V} (hwf : WF s) : WF (Evict s) := by
  unfold Evict
  split_ifs with h
  · exact hwf
  · cases hf : (sortBy (Compare s.k_) (members s)).find? (fun n => n.is_evictable_) with
    | none => exact hwf
    | some node => exact WF_delete hwf

theorem WF_Get {s : LRU_K_Cache K V} {key : K} (hwf : WF s) :
    WF (Get s key).1 := by
  simp only [Get]
  cases hl : lookupNode s.cache_ key with
  | none => exact hwf
  | some node =>
    rw [apply_ite Prod.fst]
    simp only [ite_self]
    exact WF_ResourceAccess hwf

theorem WF_Put {s : LRU_K_Cache K V} {key : K} {value : V} (hwf : WF s) :
    WF (Put s key value).1 := by
  simp only [Put]
  cases hl : lookupNode s.cache_ key with
  | some node =>
    rw [apply_ite Prod.fst]
    split_ifs with hb
    · exact WF_ResourceAccess hwf
    · exact WF_updateValue (WF_ResourceAccess hwf)
  | none =>
    rw [apply_ite Prod.fst]
    simp only [ite_self]
    exact WF_ResourceAccess (WF_insert_new (WF_Evict hwf) (lookupNode_Evict_none hl))

theorem WF_Remove {s : LRU_K_Cache K V} {key : K} (hwf : WF s) :
    WF (Remove s key).1 := by
  cases hl : lookupNode s.cache_ key with
  | none =>
    unfold Remove
    rw [hl]
    exact hwf
  | some node =>
    obtain ⟨hin, hkey⟩ := lookupNode_eq_some hl
    have hwf2 := hwf
    obtain ⟨hk, hnd, hnde, hsub, hbound, hmem, hev⟩ := hwf2
    simp only [Remove, hl]
    by_cases hc : node.history_.length = s.k_ ∧ node.is_evictable_ = true
    · rw [if_pos hc]
      exact WF_delete hwf
    · rw [if_neg hc]
      have hlk : node.history_.length ≠ s.k_ := by
        intro hfull
        refine hc ⟨hfull, ?_⟩
        rw [hev node hin]
        simp [hfull]
      have hkev : key ∉ s.eviction_keys_ := by
        intro hcm
        exact hlk ((hmem node hin).mp (hkey.symm ▸ hcm))
      refine ⟨hk, removeNodeKey_keys_nodup hnd, hnde, ?_, ?_, ?_, ?_⟩
      · intro a ha
        have hane : a ≠ key := fun hEq => hkev (hEq ▸ ha)
        rw [lookupNode_removeNodeKey_ne hane]
        exact hsub a ha
      · intro m hm
        exact hbound m (mem_removeNodeKey.mp hm).1
      · intro m hm
        exact hmem m (mem_removeNodeKey.mp hm).1
      · intro m hm
        exact hev m (mem_removeNodeKey.mp hm).1

theorem WF_init {cap k : Nat} (hk : 1 ≤ k) :
    WF (init (K := K) (V := V) cap k) := by
  refine ⟨hk, List.nodup_nil, List.nodup_nil, ?_, ?_, ?_, ?_⟩ <;>
    intro x hx <;> cases hx

theorem WF_stepOp {s : LRU_K_Cache K V} (hwf : WF s) (op : Op K V) :
    WF (stepOp s op) := by
  cases op with
  | get key => exact WF_Get hwf
  | put key value => exact WF_Put hwf
  | remove key => exact WF_Remove hwf
  | contains key => exact hwf

theorem WF_run {s : LRU_K_Cache K V} (hwf : WF s) (ops : List (Op K V)) :
    WF (run s ops) := by
  induction ops generalizing s with
  | nil => exact hwf
  | cons op rest ih => exact ih (WF_stepOp hwf op)

end LiteSTL

/-! ### Size tracking across the operations -/

namespace LiteSTL

variable {K V : Type} [LinearOrder K]

theorem length_updateValue {l : List (LRUNode K V)} {key : K} {v : V} :
    (updateValue l key v).length = l.length :=
  List.length_map l _

theorem Evict_eq_of_lt {s : LRU_K_Cache K V}
    (h : s.cache_.length < s.capacity_) : Evict s = s := by
  unfold Evict
  rw [if_pos h]

/-- When the index is at capacity and some indexed entry has full history,
`Evict` removes exactly one entry. -/
theorem Evict_size {s : LRU_K_Cache K V} (hwf : WF s)
    (hfull : ∃ n ∈ s.cache_, n.history_.length = s.k_)
    (hge : ¬ s.cache_.length < s.capacity_) :
    (Evict s).cache_.length + 1 = s.cache_.length := by
  obtain ⟨n, hn, hnl⟩ := hfull
  obtain ⟨hk, hnd, hnde, hsub, hbound, hmem, hev⟩ := hwf
  have hkeyev : n.key_ ∈ s.eviction_keys_ := (hmem n hn).mpr hnl
  have hlook : lookupNode s.cache_ n.key_ = some n := lookupNode_of_mem hnd hn
  have hnm : n ∈ members s := mem_members.mpr ⟨n.key_, hkeyev, hlook⟩
  have hall : ∀ x ∈ sortBy (Compare s.k_) (members s), x.is_evictable_ = true := by
    intro x hx
    obtain ⟨kx, hkx, hlx⟩ := mem_members.mp (mem_sortBy.mp hx)
    obtain ⟨hxin, hxkey⟩ := lookupNode_eq_some hlx
    rw [hev x hxin]
    refine decide_eq_true ?_
    exact (hmem x hxin).mp (hxkey.symm ▸ hkx)
  have hnsort : n ∈ sortBy (Compare s.k_) (members s) := mem_sortBy.mpr hnm
  obtain ⟨m, hm⟩ : ∃ m,
      (sortBy (Compare s.k_) (members s)).find? (fun x => x.is_evictable_) = some m := by
    rw [find?_all_true hall]
    cases hsl : sortBy (Compare s.k_) (members s) with
    | nil =>
      rw [hsl] at hnsort
      cases hnsort
    | cons a t => exact ⟨a, rfl⟩
  have hmmem : m ∈ members s :=
    mem_sortBy.mp (List.mem_of_find?_eq_some hm)
  obtain ⟨km, hkm, hlm⟩ := mem_members.mp hmmem
  obtain ⟨hmin, hmkey⟩ := lookupNode_eq_some hlm
  have hlookm : lookupNode s.cache_ m.key_ = some m := lookupNode_of_mem hnd hmin
  unfold Evict
  rw [if_neg hge, hm]
  exact length_removeNodeKey hnd hlookm

theorem Get_size (s : LRU_K_Cache K V) (key : K) :
    size (Get s key).1 = size s := by
  simp only [Get]
  cases hl : lookupNode s.cache_ key with
  | none => rfl
  | some node =>
    rw [apply_ite Prod.fst]
    simp only [ite_self]
    exact ResourceAccess_size s key

theorem Remove_size_le (s : LRU_K_Cache K V) (key : K) :
    size (Remove s key).1 ≤ size s := by
  cases hl : lookupNode s.cache_ key with
  | none =>
    unfold Remove
    rw [hl]
  | some node =>
    simp only [Remove, hl]
    show (removeNodeKey s.cache_ key).length ≤ s.cache_.length
    exact List.length_filter_le _ _

theorem Put_size_existing {s : LRU_K_Cache K V} {key : K} {value : V}
    {node : LRUNode K V} (hl : lookupNode s.cache_ key = some node) :
    size (Put s key value).1 = size s := by
  simp only [Put, hl]
  rw [apply_ite Prod.fst]
  split_ifs with hb
  · exact ResourceAccess_size s key
  · show (updateValue (ResourceAccess s key).1.cache_ key value).length = size s
    rw [length_updateValue]
    exact ResourceAccess_size s key

theorem Put_size_new {s : LRU_K_Cache K V} {key : K} {value : V}
    (hl : lookupNode s.cache_ key = none) :
    size (Put s key value).1 = (Evict s).cache_.length + 1 := by
  simp only [Put, hl]
  rw [apply_ite Prod.fst]
  simp only [ite_self]
  rw [ResourceAccess_size]
  rfl

theorem stepOp_capacity (s : LRU_K_Cache K V) (op : Op K V) :
    (stepOp s op).capacity_ = s.capacity_ := by
  cases op with
  | get key =>
    simp only [stepOp, Get]
    cases hl : lookupNode s.cache_ key with
    | none => rfl
    | some node =>
      rw [apply_ite Prod.fst]
      simp only [ite_self]
      exact ResourceAccess_capacity s key
  | put key value =>
    simp only [stepOp, Put]
    cases hl : lookupNode s.cache_ key with
    | some node =>
      rw [apply_ite Prod.fst]
      split_ifs with hb
      · exact ResourceAccess_capacity s key
      · show (ResourceAccess s key).1.capacity_ = s.capacity_
        exact ResourceAccess_capacity s key
    | none =>
      rw [apply_ite Prod.fst]
      simp only [ite_self]
      rw [ResourceAccess_capacity]
      exact Evict_capacity s
  | remove key =>
    simp only [stepOp]
    cases hl : lookupNode s.cache_ key with
    | none =>
      unfold Remove
      rw [hl]
    | some node =>
      simp only [Remove, hl]
  | contains key => rfl

theorem size_stepOp_le {s : LRU_K_Cache K V} {op : Op K V} (hwf : WF s)
    (hsz : size s ≤ s.capacity_) (hp : provisoHolds s op = true) :
    size (stepOp s op) ≤ s.capacity_ := by
  cases op with
  | get key =>
    show size (Get s key).1 ≤ s.capacity_
    rw [Get_size]
    exact hsz
  | contains key => exact hsz
  | remove key =>
    show size (Remove s key).1 ≤ s.capacity_
    exact le_trans (Remove_size_le s key) hsz
  | put key value =>
    show size (Put s key value).1 ≤ s.capacity_
    cases hl : lookupNode s.cache_ key with
    | some node =>
      rw [Put_size_existing hl]
      exact hsz
    | none =>
      rw [Put_size_new hl]
      by_cases hcap : s.cache_.length < s.capacity_
      · rw [Evict_eq_of_lt hcap]
        exact hcap
      · have hfull : ∃ n ∈ s.cache_, n.history_.length = s.k_ := by
          simp only [provisoHolds, hl, Option.isSome_none, Bool.false_or,
            Bool.or_eq_true, decide_eq_true_eq, List.any_eq_true] at hp
          rcases hp with hlt | ⟨n, hn, hfn⟩
          · exact absurd hlt hcap
          · exact ⟨n, hn, hfn⟩
        rw [Evict_size hwf hfull hcap]
        exact hsz

theorem size_run_le {s : LRU_K_Cache K V} (hwf : WF s)
    (hsz : size s ≤ s.capacity_) :
    ∀ ops, provisoAll s ops = true → size (run s ops) ≤ s.capacity_ := by
  intro ops
  induction ops generalizing s with
  | nil =>
    intro _
    exact hsz
  | cons op rest ih =>
    intro hp
    simp only [provisoAll, Bool.and_eq_true] at hp
    obtain ⟨hp1, hp2⟩ := hp
    have h1 : size (stepOp s op) ≤ s.capacity_ := size_stepOp_le hwf hsz hp1
    have hcap : (stepOp s op).capacity_ = s.capacity_ := stepOp_capacity s op
    have h2 := ih (WF_stepOp hwf op) (by rw [hcap]; exact h1) hp2
    rw [hcap] at h2
    exact h2

end LiteSTL

/-! ### Remaining helper lemmas for the claims -/

namespace LiteSTL

variable {K V : Type} [LinearOrder K]

theorem stepOp_k (s : LRU_K_Cache K V) (op : Op K V) :
    (stepOp s op).k_ = s.k_ := by
  cases op with
  | get key =>
    simp only [stepOp, Get]
    cases hl : lookupNode s.cache_ key with
    | none => rfl
    | some node =>
      rw [apply_ite Prod.fst]
      simp only [ite_self]
      exact ResourceAccess_k s key
  | put key value =>
    simp only [stepOp, Put]
    cases hl : lookupNode s.cache_ key with
    | some node =>
      rw [apply_ite Prod.fst]
      split_ifs with hb
      · exact ResourceAccess_k s key
      · show (ResourceAccess s key).1.k_ = s.k_
        exact ResourceAccess_k s key
    | none =>
      rw [apply_ite Prod.fst]
      simp only [ite_self]
      rw [ResourceAccess_k]
      exact Evict_k s
  | remove key =>
    simp only [stepOp]
    cases hl : lookupNode s.cache_ key with
    | none =>
      unfold Remove
      rw [hl]
    | some node =>
      simp only [Remove, hl]
  | contains key => rfl

theorem run_k (s : LRU_K_Cache K V) (ops : List (Op K V)) :
    (run s ops).k_ = s.k_ := by
  induction ops generalizing s with
  | nil => rfl
  | cons op rest ih =>
    show (run (stepOp s op) rest).k_ = s.k_
    rw [ih (stepOp s op), stepOp_k]

/-- `ResourceAccess` at an exhausted clock throws before any mutation. -/
theorem ResourceAccess_exhausted {s : LRU_K_Cache K V} (key : K)
    (hts : s.current_timestamp_ = timestampMax) :
    ResourceAccess s key = (s, true) := by
  unfold ResourceAccess
  rw [if_pos hts]

/-- Full description of the eviction step on a well-formed state at
capacity with a non-empty eviction set: exactly one entry is removed, from
both structures, and it is the member with the least oldest-retained
timestamp, ties broken by key order. -/
theorem Evict_min {s : LRU_K_Cache K V} (hwf : WF s) (hk32 : s.k_ < 2 ^ 31)
    (hge : ¬ s.cache_.length < s.capacity_) (hne : members s ≠ []) :
    ∃ m ∈ members s, m.history_.length = s.k_ ∧
      (∀ b ∈ members s, b.key_ ≠ m.key_ →
        m.history_.headD 0 < b.history_.headD 0 ∨
        (m.history_.headD 0 = b.history_.headD 0 ∧ m.key_ < b.key_)) ∧
      (Evict s).cache_ = removeNodeKey s.cache_ m.key_ ∧
      (Evict s).eviction_keys_ = eraseKey s.eviction_keys_ m.key_ ∧
      (Evict s).cache_.length + 1 = s.cache_.length := by
  obtain ⟨hk, hnd, hnde, hsub, hbound, hmem, hev⟩ := hwf
  have hmemfacts : ∀ x ∈ members s, x ∈ s.cache_ ∧ x.history_.length = s.k_ := by
    intro x hx
    obtain ⟨kx, hkx, hlx⟩ := mem_members.mp hx
    obtain ⟨hxin, hxkey⟩ := lookupNode_eq_some hlx
    exact ⟨hxin, (hmem x hxin).mp (hxkey.symm ▸ hkx)⟩
  have hall : ∀ x ∈ sortBy (Compare s.k_) (members s), x.is_evictable_ = true := by
    intro x hx
    have hx' := mem_sortBy.mp hx
    obtain ⟨hxin, hxfull⟩ := hmemfacts x hx'
    rw [hev x hxin]
    exact decide_eq_true hxfull
  obtain ⟨m, hm⟩ : ∃ m,
      (sortBy (Compare s.k_) (members s)).find? (fun x => x.is_evictable_) = some m := by
    rw [find?_all_true hall]
    cases hsl : sortBy (Compare s.k_) (members s) with
    | nil => exact absurd (sortBy_eq_nil_iff.mp hsl) hne
    | cons a t => exact ⟨a, rfl⟩
  have hhead : (sortBy (Compare s.k_) (members s)).head? = some m := by
    rw [← find?_all_true hall]
    exact hm
  obtain ⟨hmmem, hmin⟩ :=
    head_sortBy_min Compare_irrefl (fun a b c => Compare_trans) (members s) m hhead
  obtain ⟨hmin_cache, hmfull⟩ := hmemfacts m hmmem
  have hlookm : lookupNode s.cache_ m.key_ = some m := lookupNode_of_mem hnd hmin_cache
  have hev_eq : Evict s =
      { s with eviction_keys_ := eraseKey s.eviction_keys_ m.key_
               cache_ := removeNodeKey s.cache_ m.key_ } := by
    unfold Evict
    rw [if_neg hge, hm]
  refine ⟨m, hmmem, hmfull, ?_, ?_, ?_, ?_⟩
  · intro b hb hbk
    obtain ⟨hbin, hbfull⟩ := hmemfacts b hb
    have hsk : sizeTK s.k_ = s.k_ := sizeTK_eq_of_lt hk32
    have hbm : Compare s.k_ b m = false := hmin b hb
    have hmb : Compare s.k_ m b = true :=
      Compare_connex_full hk32 hbfull hmfull hbk hbm
    rcases Compare_eq_true_iff.mp hmb with ⟨hlt, _⟩ | ⟨_, hlt⟩ | ⟨_, _, hc⟩
    · omega
    · omega
    · exact hc
  · rw [hev_eq]
  · rw [hev_eq]
  · rw [hev_eq]
    show (removeNodeKey s.cache_ m.key_).length + 1 = s.cache_.length
    exact length_removeNodeKey hnd hlookm

end LiteSTL

/-! ### Lemmas for the single-history cache -/

namespace LiteSTL

variable {K V : Type} [DecidableEq K]

theorem erasePairKey_length_lt {l : List (K × V)} {key : K} {v : V}
    (h : lookupPair l key = some v) :
    (erasePairKey l key).length < l.length := by
  induction l with
  | nil => cases h
  | cons p t ih =>
    by_cases hp : p.1 = key
    · have hstep : erasePairKey (p :: t) key = erasePairKey t key := by
        unfold erasePairKey
        exact List.filter_cons_of_neg (by simp [hp])
      rw [hstep]
      exact Nat.lt_succ_of_le (List.length_filter_le _ _)
    · have h' : lookupPair t key = some v := by
        unfold lookupPair at h ⊢
        rwa [List.find?_cons_of_neg _ (by simpa using hp)] at h
      have hstep : erasePairKey (p :: t) key = p :: erasePairKey t key := by
        unfold erasePairKey
        exact List.filter_cons_of_pos (by simpa using hp)
      rw [hstep, List.length_cons, List.length_cons]
      exact Nat.succ_lt_succ (ih h')

theorem lookupPair_isSome {l : List (K × V)} {key : K} :
    (lookupPair l key).isSome ↔ key ∈ l.map Prod.fst := by
  constructor
  · intro h
    unfold lookupPair at h
    cases hfind : l.find? (fun p => decide (p.1 = key)) with
    | none =>
      rw [hfind] at h
      cases h
    | some pr =>
      have hdec := List.find?_some hfind
      exact List.mem_map.mpr ⟨pr, List.mem_of_find?_eq_some hfind,
        of_decide_eq_true hdec⟩
  · intro h
    obtain ⟨p, hp, hk⟩ := List.mem_map.mp h
    unfold lookupPair
    have hs : (l.find? (fun p => decide (p.1 = key))).isSome := by
      rw [List.find?_isSome]
      exact ⟨p, hp, by simpa using hk⟩
    cases hfind : l.find? (fun p => decide (p.1 = key)) with
    | none =>
      rw [hfind] at hs
      cases hs
    | some q => rfl

theorem getL_fst (c : LRUCache K V) (key : K) :
    (getL c key).1 = lookupPair c.list key := by
  unfold getL
  cases hl : lookupPair c.list key with
  | none => rfl
  | some v => rfl

theorem putL_eq (c : LRUCache K V) (key : K) (v : V) :
    putL c key v =
      (if c.capacity <
          ((key, v) :: (if (lookupPair c.list key).isSome then
            erasePairKey c.list key else c.list)).length
        then { c with list := ((key, v) :: (if (lookupPair c.list key).isSome
          then erasePairKey c.list key else c.list)).dropLast }
        else { c with list := (key, v) :: (if (lookupPair c.list key).isSome
          then erasePairKey c.list key else c.list) }) := rfl

theorem stepL_capacity (c : LRUCache K V) (op : OpL K V) :
    (stepL c op).capacity = c.capacity := by
  cases op with
  | put key value =>
    show (putL c key value).capacity = c.capacity
    rw [putL_eq]
    split_ifs <;> rfl
  | get key =>
    show ((getL c key).2).capacity = c.capacity
    unfold getL
    cases hl : lookupPair c.list key with
    | none => rfl
    | some v => rfl

theorem sizeL_stepL_le {c : LRUCache K V} {op : OpL K V}
    (h : sizeL c ≤ c.capacity) : sizeL (stepL c op) ≤ c.capacity := by
  unfold sizeL at h
  cases op with
  | put key value =>
    show sizeL (putL c key value) ≤ c.capacity
    rw [putL_eq]
    have hlen : (if (lookupPair c.list key).isSome then erasePairKey c.list key
        else c.list).length ≤ c.list.length := by
      split_ifs with h1
      · exact List.length_filter_le _ _
      · exact le_refl _
    set l1 := (if (lookupPair c.list key).isSome then erasePairKey c.list key
      else c.list) with hl1
    split_ifs with h2
    · show (((key, value) :: l1).dropLast).length ≤ c.capacity
      rw [List.length_dropLast, List.length_cons]
      omega
    · show ((key, value) :: l1).length ≤ c.capacity
      rw [List.length_cons] at h2 ⊢
      omega
  | get key =>
    show sizeL ((getL c key).2) ≤ c.capacity
    unfold getL
    cases hl : lookupPair c.list key with
    | none => exact h
    | some v =>
      show ((key, v) :: erasePairKey c.list key).length ≤ c.capacity
      rw [List.length_cons]
      have := erasePairKey_length_lt hl
      omega

theorem sizeL_runL_le {c : LRUCache K V} (h : sizeL c ≤ c.capacity) :
    ∀ ops : List (OpL K V), sizeL (runL c ops) ≤ c.capacity := by
  intro ops
  induction ops generalizing c with
  | nil => exact h
  | cons op rest ih =>
    have h1 : sizeL (stepL c op) ≤ c.capacity := sizeL_stepL_le h
    have hcap : (stepL c op).capacity = c.capacity := stepL_capacity c op
    have h2 := ih (c := stepL c op) (by rw [hcap]; exact h1)
    show sizeL (runL (stepL c op) rest) ≤ c.capacity
    rw [← hcap]
    exact h2

end LiteSTL

/-! ### The claims -/

namespace LiteSTL

variable {K V : Type} [LinearOrder K]

/-- C1 counterexample: at `K = 2^31` the comparator's narrowed `int k_`
wraps negative, so the eviction set is ordered by key alone. At the
capacity-reached state `sWrap` (a new key 5 about to be put, two
full-history members), the eviction step removes key 0 — whose oldest
retained timestamp is 9 — while member key 1 with the strictly smaller
oldest timestamp 3 survives, refuting "the evicted element is the
full-history entry whose oldest retained timestamp is smallest". -/
theorem C1_counterexample :
    WF sWrap ∧ lookupNode sWrap.cache_ 5 = none ∧
      sWrap.capacity_ ≤ size sWrap ∧ members sWrap ≠ [] ∧
      ({ key_ := 0, value_ := 0, history_ := hWrap9, is_evictable_ := true }
        : LRUNode Nat Nat) ∈ members sWrap ∧
      ({ key_ := 1, value_ := 0, history_ := hWrap3, is_evictable_ := true }
        : LRUNode Nat Nat) ∈ members sWrap ∧
      hWrap3.headD 0 < hWrap9.headD 0 ∧
      (Evict sWrap).cache_ =
        [{ key_ := 1, value_ := 0, history_ := hWrap3, is_evictable_ := true }] ∧
      (Evict sWrap).eviction_keys_ = [1] ∧
      lookupNode (Evict sWrap).cache_ 0 = none := by
  have hlen9 : hWrap9.length = 2 ^ 31 := List.length_replicate _ _
  have hlen3 : hWrap3.length = 2 ^ 31 := List.length_replicate _ _
  have hsk : sizeTK (2 ^ 31) = 2 ^ 64 - 2 ^ 32 + 2 ^ 31 := by
    unfold sizeTK
    rw [Nat.mod_eq_of_lt (by norm_num)]
    rw [if_neg (by norm_num)]
  have ha9 : hWrap9.length < sizeTK (2 ^ 31) := by
    rw [hlen9, hsk]
    norm_num
  have ha3 : hWrap3.length < sizeTK (2 ^ 31) := by
    rw [hlen3, hsk]
    norm_num
  have hc01 : Compare sWrap.k_
      ({ key_ := 0, value_ := 0, history_ := hWrap9, is_evictable_ := true }
        : LRUNode Nat Nat)
      { key_ := 1, value_ := 0, history_ := hWrap3, is_evictable_ := true }
      = true := by
    rw [show sWrap.k_ = 2 ^ 31 from rfl]
    rw [Compare_below_both ha9 ha3]
    decide
  have hmemw : members sWrap =
      [{ key_ := 0, value_ := 0, history_ := hWrap9, is_evictable_ := true },
       { key_ := 1, value_ := 0, history_ := hWrap3, is_evictable_ := true }] := rfl
  have hfind : (sortBy (Compare sWrap.k_) (members sWrap)).find?
      (fun n => n.is_evictable_) =
      some { key_ := 0, value_ := 0, history_ := hWrap9, is_evictable_ := true } := by
    rw [hmemw]
    simp only [sortBy, insertSorted]
    rw [hc01]
    rfl
  have hevict : Evict sWrap =
      { sWrap with
        eviction_keys_ := eraseKey sWrap.eviction_keys_ 0
        cache_ := removeNodeKey sWrap.cache_ 0 } := by
    unfold Evict
    rw [if_neg (by decide), hfind]
  have hWF : WF sWrap := by
    refine ⟨by decide, by decide, by decide, by decide, ?_, ?_, ?_⟩
    · intro n hn
      rcases List.mem_cons.mp hn with rfl | hn1
      · show hWrap9.length ≤ sWrap.k_
        rw [hlen9]
        decide
      · rcases List.mem_cons.mp hn1 with rfl | hn2
        · show hWrap3.length ≤ sWrap.k_
          rw [hlen3]
          decide
        · cases hn2
    · intro n hn
      rcases List.mem_cons.mp hn with rfl | hn1
      · show (0 : Nat) ∈ sWrap.eviction_keys_ ↔ hWrap9.length = sWrap.k_
        rw [hlen9]
        exact iff_of_true (by decide) (by decide)
      · rcases List.mem_cons.mp hn1 with rfl | hn2
        · show (1 : Nat) ∈ sWrap.eviction_keys_ ↔ hWrap3.length = sWrap.k_
          rw [hlen3]
          exact iff_of_true (by decide) (by decide)
        · cases hn2
    · intro n hn
      rcases List.mem_cons.mp hn with rfl | hn1
      · show true = decide (hWrap9.length = sWrap.k_)
        rw [hlen9]
        decide
      · rcases List.mem_cons.mp hn1 with rfl | hn2
        · show true = decide (hWrap3.length = sWrap.k_)
          rw [hlen3]
          decide
        · cases hn2
  refine ⟨hWF, by decide, by decide, by decide, ?_, ?_, by decide, ?_, ?_, ?_⟩
  · rw [hmemw]
    exact List.mem_cons_self _ _
  · rw [hmemw]
    exact List.mem_cons_of_mem _ (List.mem_cons_self _ _)
  · rw [hevict]
    rfl
  · rw [hevict]
    rfl
  · rw [hevict]
    rfl

/-- C1 (amended): when a put of a new key occurs while the index has
reached capacity and K is below `2^31` — so the comparator's narrowed
`int k_` equals the cache's K — the eviction step removes exactly one
entry, the first element of the ordering structure, if non-empty; that
element is the full-history entry whose oldest retained timestamp
(K-th-most-recent access) is smallest, exact timestamp ties broken by the
key order, and it is deleted from both the index and the ordering
structure, so the put leaves the size unchanged. -/
theorem C1_evict_removes_least {s : LRU_K_Cache K V} {key : K}
    (hwf : WF s) (hk32 : s.k_ < 2 ^ 31)
    (hnew : lookupNode s.cache_ key = none)
    (hcap : s.capacity_ ≤ size s) (hne : members s ≠ []) :
    ∃ m ∈ members s, m.history_.length = s.k_ ∧
      (∀ b ∈ members s, b.key_ ≠ m.key_ →
        m.history_.headD 0 < b.history_.headD 0 ∨
        (m.history_.headD 0 = b.history_.headD 0 ∧ m.key_ < b.key_)) ∧
      (Evict s).cache_ = removeNodeKey s.cache_ m.key_ ∧
      (Evict s).eviction_keys_ = eraseKey s.eviction_keys_ m.key_ ∧
      size (Evict s) + 1 = size s ∧
      (∀ value : V, size (Put s key value).1 = size s) := by
  have hge : ¬ s.cache_.length < s.capacity_ := by
    unfold size at hcap
    omega
  obtain ⟨m, hmm, hfull, hmin, hc, he, hsz⟩ := Evict_min hwf hk32 hge hne
  refine ⟨m, hmm, hfull, hmin, hc, he, hsz, ?_⟩
  intro value
  rw [Put_size_new hnew]
  unfold size
  exact hsz

/-- Witness for C1 (amended) at a concrete capacity-2, K-1 state with two
full members: key 1 (oldest timestamp 1) is the eviction candidate. -/
theorem C1_witness :
    WF sC1 ∧ sC1.k_ < 2 ^ 31 ∧ lookupNode sC1.cache_ 5 = none ∧
      sC1.capacity_ ≤ size sC1 ∧ members sC1 ≠ [] ∧
      (∃ m ∈ members sC1, m.history_.length = sC1.k_ ∧
        (∀ b ∈ members sC1, b.key_ ≠ m.key_ →
          m.history_.headD 0 < b.history_.headD 0 ∨
          (m.history_.headD 0 = b.history_.headD 0 ∧ m.key_ < b.key_)) ∧
        (Evict sC1).cache_ = removeNodeKey sC1.cache_ m.key_ ∧
        (Evict sC1).eviction_keys_ = eraseKey sC1.eviction_keys_ m.key_ ∧
        size (Evict sC1) + 1 = size sC1 ∧
        (∀ value : Nat, size (Put sC1 5 value).1 = size sC1)) :=
  ⟨by decide, by decide, by decide, by decide, by decide,
    C1_evict_removes_least (by decide) (by decide) (by decide) (by decide)
      (by decide)⟩

/-- C2: For every sequence of public operations on an LRU-K cache with
capacity `C ≥ 1` and `K ≥ 1`, if at every put of a new key made while
`size()` has reached `C` at least one indexed entry has full history, then
`size()` never exceeds `C` after any operation. -/
theorem C2_capacity_invariant (C k : Nat) (ops : List (Op K V))
    (hC : 1 ≤ C) (hk : 1 ≤ k)
    (hp : provisoAll (init (K := K) (V := V) C k) ops = true) :
    size (run (init (K := K) (V := V) C k) ops) ≤ C := by
  have hwf0 : WF (init (K := K) (V := V) C k) := WF_init hk
  exact size_run_le hwf0 (Nat.zero_le C) ops hp

/-- Witness for C2: capacity 1, K 1, two distinct keys inserted; the second
insertion happens at capacity with key 0 already at full history. -/
theorem C2_witness :
    1 ≤ 1 ∧ 1 ≤ 1 ∧
      provisoAll (init (K := Nat) (V := Nat) 1 1)
        [Op.put 0 0, Op.put 1 1, Op.get 1] = true ∧
      size (run (init (K := Nat) (V := Nat) 1 1)
        [Op.put 0 0, Op.put 1 1, Op.get 1]) ≤ 1 :=
  ⟨le_refl 1, le_refl 1, by decide,
    C2_capacity_invariant 1 1 [Op.put 0 0, Op.put 1 1, Op.get 1]
      (le_refl 1) (le_refl 1) (by decide)⟩

/-- C3: In every state reachable through the public operations of an LRU-K
cache with `K ≥ 1`, every entry's history holds at most K timestamps, and
an entry is a member of the eviction ordering structure exactly when its
history length equals K. -/
theorem C3_history_and_membership (cap k : Nat) (ops : List (Op K V))
    (hk : 1 ≤ k) :
    (∀ n ∈ (run (init (K := K) (V := V) cap k) ops).cache_,
        n.history_.length ≤ k) ∧
    (∀ n ∈ (run (init (K := K) (V := V) cap k) ops).cache_,
        n.key_ ∈ (run (init (K := K) (V := V) cap k) ops).eviction_keys_ ↔
          n.history_.length = k) := by
  have hwf : WF (run (init (K := K) (V := V) cap k) ops) :=
    WF_run (WF_init hk) ops
  obtain ⟨_, _, _, _, hbound, hmem, _⟩ := hwf
  constructor
  · intro n hn
    have hb := hbound n hn
    rwa [run_k] at hb
  · intro n hn
    have hm := hmem n hn
    rwa [run_k] at hm

/-- Witness for C3 on a short concrete run (put then get with K = 1). -/
theorem C3_witness :
    1 ≤ 1 ∧
      ((∀ n ∈ (run (init (K := Nat) (V := Nat) 2 1)
          [Op.put 0 5, Op.get 0]).cache_, n.history_.length ≤ 1) ∧
       (∀ n ∈ (run (init (K := Nat) (V := Nat) 2 1)
          [Op.put 0 5, Op.get 0]).cache_,
          n.key_ ∈ (run (init (K := Nat) (V := Nat) 2 1)
            [Op.put 0 5, Op.get 0]).eviction_keys_ ↔
            n.history_.length = 1)) :=
  ⟨le_refl 1, C3_history_and_membership 2 1 [Op.put 0 5, Op.get 0] (le_refl 1)⟩

end LiteSTL

namespace LiteSTL

variable {K V : Type} [LinearOrder K]

/-- C4 counterexample: a cache constructed with capacity 0 (and K 1) is
created normally and is fully usable — `put` succeeds and `get` returns the
stored value — and a constructor call with K 0 equally returns a normal
instance instead of failing, refuting "fails fast at construction; no such
instance is ever usable". (No operation is evaluated on the K-0 instance:
in the source its first recorded access reads `front()` of an empty history
inside the comparator, which is undefined behaviour.) -/
theorem C4_counterexample :
    (Put (init (K := Nat) (V := Nat) 0 1) 5 7).2 = Except.ok () ∧
    (Get (Put (init (K := Nat) (V := Nat) 0 1) 5 7).1 5).2 =
      Except.ok (some 7) ∧
    size (Put (init (K := Nat) (V := Nat) 0 1) 5 7).1 = 1 ∧
    init (K := Nat) (V := Nat) 3 0 =
      { capacity_ := 3, k_ := 0, cache_ := [], eviction_keys_ := [],
        current_timestamp_ := 0 } := by decide

/-- C4 amended: the constructor performs no validation of capacity or K —
it always succeeds, storing the given parameters over empty state (for K 0
just as for capacity 0) — and a capacity-0 cache with K 1 remains fully
usable: `put` succeeds and `get` returns the stored value. -/
theorem C4_amended (cache_size k : Nat) :
    init (K := Nat) (V := Nat) cache_size k =
      { capacity_ := cache_size, k_ := k, cache_ := [], eviction_keys_ := [],
        current_timestamp_ := 0 } ∧
    (Put (init (K := Nat) (V := Nat) 0 1) 5 7).2 = Except.ok () ∧
    (Get (Put (init (K := Nat) (V := Nat) 0 1) 5 7).1 5).2 =
      Except.ok (some 7) ∧
    size (Put (init (K := Nat) (V := Nat) 0 1) 5 7).1 = 1 :=
  ⟨rfl, by decide, by decide, by decide⟩

/-- C5 counterexample: with the logical clock at its maximum, a put of a new
key fails — yet the eviction has run (key 0 is gone) and the new key has
been inserted into the index with empty history, refuting "no eviction, no
index insertion ... occurs on the failing operation". -/
theorem C5_counterexample :
    (Put sMax1 1 99).2 = Except.error "Timestamp overflow in LRU-K Cache" ∧
    lookupNode (Put sMax1 1 99).1.cache_ 1 =
      some { key_ := 1, value_ := 99, history_ := [], is_evictable_ := false } ∧
    lookupNode (Put sMax1 1 99).1.cache_ 0 = none ∧
    (Put sMax1 1 99).1 ≠ sMax1 := by decide

/-- C5 amended: at an exhausted clock every access-recording operation
fails with the overflow error. A `get` (hit or miss) and a `put` of an
existing key leave the cache unchanged, because the timestamp is validated
before any mutation inside `ResourceAccess`; but a `put` of a new key runs
the eviction step and inserts the fresh (empty-history) node into the index
before the clock check fires, so that failing operation does leave a
partial update. -/
theorem C5_amended (s : LRU_K_Cache K V) (key : K) (value : V)
    (hts : s.current_timestamp_ = timestampMax) :
    ((lookupNode s.cache_ key).isSome →
        Get s key = (s, Except.error "Timestamp overflow in LRU-K Cache") ∧
        Put s key value =
          (s, Except.error "Timestamp overflow in LRU-K Cache")) ∧
    (lookupNode s.cache_ key = none →
        Get s key = (s, Except.ok none) ∧
        Put s key value =
          ({ Evict s with cache_ :=
              ({ key_ := key, value_ := value, history_ := [],
                 is_evictable_ := false } : LRUNode K V) :: (Evict s).cache_ },
           Except.error "Timestamp overflow in LRU-K Cache")) := by
  constructor
  · intro hsome
    obtain ⟨node, hl⟩ := Option.isSome_iff_exists.mp hsome
    constructor
    · simp only [Get, hl, ResourceAccess_exhausted key hts]
      rfl
    · simp only [Put, hl, ResourceAccess_exhausted key hts]
      rfl
  · intro hnone
    have hts2 : ({ Evict s with cache_ :=
        ({ key_ := key, value_ := value, history_ := [],
           is_evictable_ := false } : LRUNode K V) :: (Evict s).cache_ }
        : LRU_K_Cache K V).current_timestamp_ = timestampMax := by
      show (Evict s).current_timestamp_ = timestampMax
      rw [Evict_timestamp]
      exact hts
    constructor
    · unfold Get
      rw [hnone]
    · simp only [Put, hnone, ResourceAccess_exhausted key hts2]
      rfl

/-- Witness for C5 (amended) at the concrete exhausted-clock state. -/
theorem C5_witness :
    sMax1.current_timestamp_ = timestampMax ∧
    (((lookupNode sMax1.cache_ 0).isSome →
        Get sMax1 0 = (sMax1, Except.error "Timestamp overflow in LRU-K Cache") ∧
        Put sMax1 0 99 =
          (sMax1, Except.error "Timestamp overflow in LRU-K Cache")) ∧
      (lookupNode sMax1.cache_ 0 = none →
        Get sMax1 0 = (sMax1, Except.ok none) ∧
        Put sMax1 0 99 =
          ({ Evict sMax1 with cache_ :=
              ({ key_ := 0, value_ := 99, history_ := [],
                 is_evictable_ := false } : LRUNode Nat Nat) ::
                (Evict sMax1).cache_ },
           Except.error "Timestamp overflow in LRU-K Cache"))) :=
  ⟨by decide, C5_amended sMax1 0 99 (by decide)⟩

/-- C6: entries with fewer than K recorded accesses are never eviction
candidates (the ordering structure stays empty here), so two puts of
distinct once-seen keys under K = 2 push `size()` strictly beyond the
capacity 1 — the capacity bound is not enforced. -/
theorem C6_subK_never_candidates :
    size (run (init (K := Nat) (V := Nat) 1 2) [Op.put 0 0, Op.put 1 1]) = 2 ∧
    (run (init (K := Nat) (V := Nat) 1 2)
      [Op.put 0 0, Op.put 1 1]).capacity_ = 1 ∧
    (run (init (K := Nat) (V := Nat) 1 2)
      [Op.put 0 0, Op.put 1 1]).eviction_keys_ = [] ∧
    (∀ n ∈ (run (init (K := Nat) (V := Nat) 1 2)
      [Op.put 0 0, Op.put 1 1]).cache_, n.history_.length < 2) := by decide

/-- C8: removing a present key returns true and deletes the entry from both
the ordering structure and the index, so a subsequent get returns empty;
removing an absent key returns false and changes nothing. -/
theorem C8_remove_semantics (s : LRU_K_Cache K V) (key : K) (hwf : WF s) :
    (∀ node : LRUNode K V, lookupNode s.cache_ key = some node →
        (Remove s key).2 = true ∧
        lookupNode ((Remove s key).1).cache_ key = none ∧
        key ∉ ((Remove s key).1).eviction_keys_ ∧
        Get ((Remove s key).1) key = ((Remove s key).1, Except.ok none)) ∧
    (lookupNode s.cache_ key = none → Remove s key = (s, false)) := by
  obtain ⟨hk, hnd, hnde, hsub, hbound, hmem, hev⟩ := hwf
  constructor
  · intro node hl
    obtain ⟨hin, hkey⟩ := lookupNode_eq_some hl
    have h1 : ((Remove s key).1).cache_ = removeNodeKey s.cache_ key := by
      simp only [Remove, hl]
    have hlooknone : lookupNode ((Remove s key).1).cache_ key = none := by
      rw [h1]
      exact lookupNode_removeNodeKey_self
    refine ⟨?_, hlooknone, ?_, ?_⟩
    · simp only [Remove, hl]
    · simp only [Remove, hl]
      split_ifs with hc
      · show key ∉ eraseKey s.eviction_keys_ key
        intro hcm
        exact (mem_eraseKey.mp hcm).2 rfl
      · show key ∉ s.eviction_keys_
        intro hcm
        have hfull := (hmem node hin).mp (hkey.symm ▸ hcm)
        refine hc ⟨hfull, ?_⟩
        rw [hev node hin]
        simp [hfull]
    · unfold Get
      rw [hlooknone]
  · intro hl
    unfold Remove
    rw [hl]

/-- Witness for C8 at a concrete state, on a present key (0) and an absent
key (5). -/
theorem C8_witness :
    WF s8 ∧
    ((∀ node : LRUNode Nat Nat, lookupNode s8.cache_ 0 = some node →
        (Remove s8 0).2 = true ∧
        lookupNode ((Remove s8 0).1).cache_ 0 = none ∧
        (0 : Nat) ∉ ((Remove s8 0).1).eviction_keys_ ∧
        Get ((Remove s8 0).1) 0 = ((Remove s8 0).1, Except.ok none)) ∧
      (lookupNode s8.cache_ 0 = none → Remove s8 0 = (s8, false))) ∧
    ((∀ node : LRUNode Nat Nat, lookupNode s8.cache_ 5 = some node →
        (Remove s8 5).2 = true ∧
        lookupNode ((Remove s8 5).1).cache_ 5 = none ∧
        (5 : Nat) ∉ ((Remove s8 5).1).eviction_keys_ ∧
        Get ((Remove s8 5).1) 5 = ((Remove s8 5).1, Except.ok none)) ∧
      (lookupNode s8.cache_ 5 = none → Remove s8 5 = (s8, false))) :=
  ⟨by decide, C8_remove_semantics s8 0 (by decide),
    C8_remove_semantics s8 5 (by decide)⟩

/-- C9: `contains` is an existence check only — it returns the state
unchanged (so clock, histories, index and ordering structure are all
untouched), any number of repetitions leaves the state fixed, and a
subsequent `Get` behaves exactly as if called directly. -/
theorem C9_contains_pure (s : LRU_K_Cache K V) (key key' : K) (n : Nat) :
    (containsOp s key).1 = s ∧
    (containsOp s key).2 = (lookupNode s.cache_ key).isSome ∧
    Get (containsOp s key).1 key' = Get s key' ∧
    Nat.iterate (fun t => (containsOp t key).1) n s = s := by
  refine ⟨rfl, rfl, rfl, ?_⟩
  induction n with
  | zero => rfl
  | succ m ih =>
    rw [Function.iterate_succ_apply]
    exact ih

end LiteSTL

namespace LiteSTL

variable {K V : Type} [DecidableEq K]

/-- C7: for the K = 1 variant with capacity 2, after
`put(a,1); put(b,2); get(a); put(c,3)` the key `b` is evicted while `a` and
`c` remain retrievable (keys a, b, c rendered as 0, 1, 2). -/
theorem C7_k1_trace :
    (getL (runL (initL (K := Nat) (V := Nat) 2)
      [OpL.put 0 1, OpL.put 1 2, OpL.get 0, OpL.put 2 3]) 1).1 = none ∧
    (getL (runL (initL (K := Nat) (V := Nat) 2)
      [OpL.put 0 1, OpL.put 1 2, OpL.get 0, OpL.put 2 3]) 0).1 = some 1 ∧
    (getL (runL (initL (K := Nat) (V := Nat) 2)
      [OpL.put 0 1, OpL.put 1 2, OpL.get 0, OpL.put 2 3]) 2).1 = some 3 := by
  decide

/-- C10: for the single-history variant with capacity `c ≥ 1`, after every
operation sequence the stored count — and hence the number of distinct keys
retrievable through `get` — never exceeds `c`, unconditionally. -/
theorem C10_lru_bound (c : Nat) (ops : List (OpL K V)) (hc : 1 ≤ c) :
    sizeL (runL (initL (K := K) (V := V) c) ops) ≤ c ∧
    (retrievableKeys (runL (initL (K := K) (V := V) c) ops)).length ≤ c ∧
    (∀ key, ((getL (runL (initL (K := K) (V := V) c) ops) key).1).isSome ↔
      key ∈ retrievableKeys (runL (initL (K := K) (V := V) c) ops)) := by
  have h0 : sizeL (initL (K := K) (V := V) c) ≤
      (initL (K := K) (V := V) c).capacity := Nat.zero_le c
  have h1 : sizeL (runL (initL (K := K) (V := V) c) ops) ≤ c :=
    sizeL_runL_le h0 ops
  refine ⟨h1, ?_, ?_⟩
  · have hsub : List.Sublist
        (retrievableKeys (runL (initL (K := K) (V := V) c) ops))
        ((runL (initL (K := K) (V := V) c) ops).list.map Prod.fst) :=
      List.dedup_sublist _
    have h2 := hsub.length_le
    rw [List.length_map] at h2
    exact le_trans h2 h1
  · intro key
    rw [getL_fst, lookupPair_isSome]
    unfold retrievableKeys
    exact (List.mem_dedup).symm

/-- Witness for C10 at capacity 1 with a single put. -/
theorem C10_witness :
    1 ≤ 1 ∧
    (sizeL (runL (initL (K := Nat) (V := Nat) 1) [OpL.put 0 5]) ≤ 1 ∧
      (retrievableKeys (runL (initL (K := Nat) (V := Nat) 1)
        [OpL.put 0 5])).length ≤ 1 ∧
      (∀ key, ((getL (runL (initL (K := Nat) (V := Nat) 1)
          [OpL.put 0 5]) key).1).isSome ↔
        key ∈ retrievableKeys (runL (initL (K := Nat) (V := Nat) 1)
          [OpL.put 0 5]))) :=
  ⟨le_refl 1, C10_lru_bound 1 [OpL.put 0 5] (le_refl 1)⟩

end LiteSTL
